import Mathlib

/-!
Verification of the Interpify server (src/server.js): room/session registry,
per-utterance translation fan-out pipeline, origin/client verification, room
code generation, and ephemeral-file cleanup.  JavaScript objects / Maps are
embedded as association lists over `String` keys; the mutable registries become
explicit state passed through each operation; fallible externals (ffmpeg,
OpenAI calls, unlink) become `Option`/`Bool` parameters of the model.
-/

namespace Interpify

/-- A room member as built in the joinRoom handler (server.js:598-603):
`{ id: socket.id, username, language, socketId: socket.id }`. -/
structure User where
  id : String
  username : String
  language : String
  socketId : String
deriving DecidableEq, Repr

/-- A JavaScript object / `Map` with string keys, as an association list in
insertion order (JS objects preserve insertion order for string keys). -/
abbrev AList (α : Type) := List (String × α)

/-- `obj[k]` / `map.get(k)`. -/
def lookupA {α : Type} : AList α → String → Option α
  | [], _ => none
  | p :: t, k => if p.1 = k then some p.2 else lookupA t k

/-- `obj[k] = v` / `map.set(k, v)`: replace the entry in place (JS keys are
unique) or append a new entry. -/
def setA {α : Type} : AList α → String → α → AList α
  | [], k, v => [(k, v)]
  | p :: t, k, v => if p.1 = k then (k, v) :: t else p :: setA t k v

/-- `delete obj[k]` / `map.delete(k)`. -/
def eraseA {α : Type} : AList α → String → AList α
  | [], _ => []
  | p :: t, k => if p.1 = k then t else p :: eraseA t k

def keysA {α : Type} (l : AList α) : List String := l.map Prod.fst

@[simp] theorem lookupA_nil {α : Type} (k : String) : lookupA ([] : AList α) k = none := rfl

theorem lookupA_cons {α : Type} (p : String × α) (t : AList α) (k : String) :
    lookupA (p :: t) k = if p.1 = k then some p.2 else lookupA t k := rfl

theorem setA_nil {α : Type} (k : String) (v : α) : setA [] k v = [(k, v)] := rfl

theorem setA_cons {α : Type} (p : String × α) (t : AList α) (k : String) (v : α) :
    setA (p :: t) k v = if p.1 = k then (k, v) :: t else p :: setA t k v := rfl

theorem eraseA_cons {α : Type} (p : String × α) (t : AList α) (k : String) :
    eraseA (p :: t) k = if p.1 = k then t else p :: eraseA t k := rfl

theorem lookupA_eq_none_of_not_mem_keys {α : Type} {l : AList α} {k : String}
    (h : k ∉ keysA l) : lookupA l k = none := by
  induction l with
  | nil => rfl
  | cons p t ih =>
    simp only [keysA, List.map_cons, List.mem_cons, not_or] at h
    rw [lookupA_cons, if_neg (fun e => h.1 e.symm)]
    exact ih h.2

theorem mem_keys_of_lookupA {α : Type} {l : AList α} {k : String} {v : α}
    (h : lookupA l k = some v) : k ∈ keysA l := by
  induction l with
  | nil => exact absurd h (by simp)
  | cons p t ih =>
    rw [lookupA] at h
    by_cases hp : p.1 = k
    · exact hp ▸ List.mem_map_of_mem Prod.fst (List.mem_cons_self p t)
    · rw [if_neg hp] at h
      exact List.mem_cons_of_mem _ (ih h)

@[simp] theorem lookupA_setA_self {α : Type} (l : AList α) (k : String) (v : α) :
    lookupA (setA l k v) k = some v := by
  induction l with
  | nil => simp [setA, lookupA]
  | cons p t ih =>
    by_cases h : p.1 = k
    · simp [setA, h, lookupA]
    · simp only [setA, if_neg h]
      rw [lookupA_cons, if_neg h]
      exact ih

theorem lookupA_setA_ne {α : Type} (l : AList α) (k k2 : String) (v : α) (h : k2 ≠ k) :
    lookupA (setA l k v) k2 = lookupA l k2 := by
  induction l with
  | nil =>
    rw [setA_nil, lookupA_cons, if_neg (fun e => h e.symm)]
  | cons p t ih =>
    by_cases hp : p.1 = k
    · subst hp
      rw [setA_cons, if_pos rfl, lookupA_cons, lookupA_cons,
        if_neg (fun e => h e.symm), if_neg (fun e => h e.symm)]
    · rw [setA_cons, if_neg hp, lookupA_cons, lookupA_cons, ih]

theorem lookupA_eraseA_self {α : Type} {l : AList α} {k : String}
    (hnd : (keysA l).Nodup) : lookupA (eraseA l k) k = none := by
  induction l with
  | nil => rfl
  | cons p t ih =>
    simp only [keysA, List.map_cons, List.nodup_cons] at hnd
    by_cases h : p.1 = k
    · rw [eraseA_cons, if_pos h]
      exact lookupA_eq_none_of_not_mem_keys (h ▸ hnd.1)
    · rw [eraseA_cons, if_neg h, lookupA_cons, if_neg h]
      exact ih hnd.2

theorem lookupA_eraseA_ne {α : Type} (l : AList α) (k k2 : String) (h : k2 ≠ k) :
    lookupA (eraseA l k) k2 = lookupA l k2 := by
  induction l with
  | nil => rfl
  | cons p t ih =>
    by_cases hp : p.1 = k
    · subst hp
      rw [eraseA_cons, if_pos rfl, lookupA_cons, if_neg (fun e => h e.symm)]
    · rw [eraseA_cons, if_neg hp, lookupA_cons, lookupA_cons, ih]

theorem mem_keysA_setA {α : Type} {l : AList α} {k k2 : String} {v : α} :
    k2 ∈ keysA (setA l k v) ↔ k2 = k ∨ k2 ∈ keysA l := by
  induction l with
  | nil => simp [setA_nil, keysA]
  | cons p t ih =>
    by_cases h : p.1 = k
    · subst h
      rw [setA_cons, if_pos rfl]
      simp only [keysA, List.map_cons, List.mem_cons]
      tauto
    · rw [setA_cons, if_neg h]
      simp only [keysA, List.map_cons, List.mem_cons]
      simp only [keysA] at ih
      rw [ih]
      tauto

theorem nodup_keysA_setA {α : Type} {l : AList α} (k : String) (v : α)
    (hnd : (keysA l).Nodup) : (keysA (setA l k v)).Nodup := by
  induction l with
  | nil => simp [setA_nil, keysA]
  | cons p t ih =>
    simp only [keysA, List.map_cons, List.nodup_cons] at hnd
    by_cases h : p.1 = k
    · subst h
      rw [setA_cons, if_pos rfl]
      simp only [keysA, List.map_cons, List.nodup_cons]
      exact hnd
    · rw [setA_cons, if_neg h]
      simp only [keysA, List.map_cons, List.nodup_cons]
      refine ⟨fun hmem => ?_, ih hnd.2⟩
      rcases mem_keysA_setA.mp hmem with e | hmem2
      · exact h e
      · exact hnd.1 hmem2

theorem mem_keysA_eraseA {α : Type} {l : AList α} {k k2 : String}
    (h : k2 ∈ keysA (eraseA l k)) : k2 ∈ keysA l := by
  induction l with
  | nil => exact h
  | cons p t ih =>
    by_cases hp : p.1 = k
    · rw [eraseA_cons, if_pos hp] at h
      exact List.mem_cons_of_mem _ h
    · rw [eraseA_cons, if_neg hp] at h
      simp only [keysA, List.map_cons, List.mem_cons] at h ⊢
      rcases h with h | h
      · exact Or.inl h
      · exact Or.inr (ih h)

theorem nodup_keysA_eraseA {α : Type} {l : AList α} (k : String)
    (hnd : (keysA l).Nodup) : (keysA (eraseA l k)).Nodup := by
  induction l with
  | nil => simp [eraseA, keysA]
  | cons p t ih =>
    simp only [keysA, List.map_cons, List.nodup_cons] at hnd
    by_cases hp : p.1 = k
    · rw [eraseA_cons, if_pos hp]
      exact hnd.2
    · rw [eraseA_cons, if_neg hp]
      simp only [keysA, List.map_cons, List.nodup_cons]
      exact ⟨fun hm => hnd.1 (mem_keysA_eraseA hm), ih hnd.2⟩

theorem mem_setA {α : Type} {l : AList α} {k : String} {v : α} {p : String × α}
    (h : p ∈ setA l k v) : p = (k, v) ∨ p ∈ l := by
  induction l with
  | nil => simpa [setA] using h
  | cons q t ih =>
    by_cases hq : q.1 = k
    · rw [setA_cons, if_pos hq] at h
      rcases List.mem_cons.mp h with h | h
      · exact Or.inl h
      · exact Or.inr (List.mem_cons_of_mem _ h)
    · rw [setA_cons, if_neg hq] at h
      rcases List.mem_cons.mp h with h | h
      · exact Or.inr (h ▸ List.mem_cons_self q t)
      · rcases ih h with h2 | h2
        · exact Or.inl h2
        · exact Or.inr (List.mem_cons_of_mem _ h2)

theorem mem_setA_strong {α : Type} {l : AList α} {k : String} {v : α} {p : String × α}
    (hnd : (keysA l).Nodup) (h : p ∈ setA l k v) : p = (k, v) ∨ (p ∈ l ∧ p.1 ≠ k) := by
  induction l with
  | nil => simpa [setA] using h
  | cons q t ih =>
    simp only [keysA, List.map_cons, List.nodup_cons] at hnd
    by_cases hq : q.1 = k
    · subst hq
      rw [setA_cons, if_pos rfl] at h
      rcases List.mem_cons.mp h with h | h
      · exact Or.inl h
      · refine Or.inr ⟨List.mem_cons_of_mem _ h, fun e => ?_⟩
        exact hnd.1 (e ▸ List.mem_map_of_mem Prod.fst h)
    · rw [setA_cons, if_neg hq] at h
      rcases List.mem_cons.mp h with h | h
      · exact Or.inr ⟨h ▸ List.mem_cons_self q t, h ▸ hq⟩
      · rcases ih hnd.2 h with h2 | h2
        · exact Or.inl h2
        · exact Or.inr ⟨List.mem_cons_of_mem _ h2.1, h2.2⟩

theorem mem_eraseA {α : Type} {l : AList α} {k : String} {p : String × α}
    (h : p ∈ eraseA l k) : p ∈ l := by
  induction l with
  | nil => exact h
  | cons q t ih =>
    by_cases hq : q.1 = k
    · rw [eraseA_cons, if_pos hq] at h
      exact List.mem_cons_of_mem _ h
    · rw [eraseA_cons, if_neg hq] at h
      rcases List.mem_cons.mp h with h | h
      · exact h ▸ List.mem_cons_self q t
      · exact List.mem_cons_of_mem _ (ih h)

theorem mem_eraseA_strong {α : Type} {l : AList α} {k : String} {p : String × α}
    (hnd : (keysA l).Nodup) (h : p ∈ eraseA l k) : p ∈ l ∧ p.1 ≠ k := by
  induction l with
  | nil => exact absurd h (by simp [eraseA])
  | cons q t ih =>
    simp only [keysA, List.map_cons, List.nodup_cons] at hnd
    by_cases hq : q.1 = k
    · rw [eraseA_cons, if_pos hq] at h
      refine ⟨List.mem_cons_of_mem _ h, fun e => ?_⟩
      exact hnd.1 (hq ▸ e ▸ List.mem_map_of_mem Prod.fst h)
    · rw [eraseA_cons, if_neg hq] at h
      rcases List.mem_cons.mp h with h | h
      · exact ⟨h ▸ List.mem_cons_self q t, h ▸ hq⟩
      · have := ih hnd.2 h
        exact ⟨List.mem_cons_of_mem _ this.1, this.2⟩

theorem lookupA_mem {α : Type} {l : AList α} {k : String} {v : α}
    (h : lookupA l k = some v) : (k, v) ∈ l := by
  induction l with
  | nil => exact absurd h (by simp)
  | cons p t ih =>
    rw [lookupA] at h
    by_cases hp : p.1 = k
    · rw [if_pos hp] at h
      have hv : p.2 = v := by injection h
      have : p = (k, v) := by
        cases p
        simp only at hp hv
        rw [hp, hv]
      exact this ▸ List.mem_cons_self p t
    · rw [if_neg hp] at h
      exact List.mem_cons_of_mem _ (ih h)

theorem lookupA_isSome_of_mem {α : Type} {l : AList α} {k : String} {v : α}
    (h : (k, v) ∈ l) : (lookupA l k).isSome := by
  induction l with
  | nil => exact absurd h (by simp)
  | cons p t ih =>
    rw [lookupA]
    by_cases hp : p.1 = k
    · simp [hp]
    · rcases List.mem_cons.mp h with h2 | h2
      · exact absurd (by rw [← h2]) hp
      · simpa [hp] using ih h2

/-! ## Session & Room Registry (server.js:284-285, 530-643, 949-993) -/

/-- `rooms[roomId].users[existingUserIndex] = newUser` where
`existingUserIndex` is the first index whose socketId matches
(server.js:559, 570-575). -/
def replaceFirst (sid : String) (nu : User) : List User → List User
  | [] => []
  | u :: rest => if u.socketId = sid then nu :: rest else u :: replaceFirst sid nu rest

/-- `findIndex(u => u.socketId === socket.id)` followed by
`splice(index, 1)` when found (server.js:582-585, 963-965). -/
def spliceOut (sid : String) : List User → List User
  | [] => []
  | u :: rest => if u.socketId = sid then rest else u :: spliceOut sid rest

/-- `users.find(u => u.socketId === socket.id)`. -/
def findUser : List User → String → Option User
  | [], _ => none
  | u :: rest, sid => if u.socketId = sid then some u else findUser rest sid

/-- The two top-level mutable tables (server.js:284-285): `let rooms = {}`
maps a room id to `{ users: [...] }` (we keep just the users array) and
`let roomLanguageGroups = {}` maps a room id to a `Map` from language tag to
the array of members in that group. -/
structure Registry where
  rooms : AList (List User)
  roomLanguageGroups : AList (AList (List User))
deriving Repr

def Registry.empty : Registry := ⟨[], []⟩

/-- `rooms[roomId] = { users: [] }` (server.js:312, 550); the generation
loop plus its exhaustion check guarantee the id is fresh at this point. -/
def createRoom (reg : Registry) (roomId : String) : Registry :=
  { reg with rooms := setA reg.rooms roomId [] }

/-- Removal of a socket from its (old) language group: look the group up,
splice the member out if present, and delete the group key when it becomes
empty.  This exact sequence appears both in the joinRoom language-change
branch (server.js:579-589) and in leaveRoom (server.js:960-971). -/
def moveOldGroup (g : AList (List User)) (oldLang sid : String) : AList (List User) :=
  match lookupA g oldLang with
  | some oldLangGroup =>
    let spliced := spliceOut sid oldLangGroup
    if spliced = [] then eraseA g oldLang
    else setA g oldLang spliced
  | none => g

/-- The joinRoom handler (server.js:555-643), registry-state changes only
(the `updateUserList` broadcast and the callback do not change state).
When the room does not exist the registry is unchanged (callback(false)
branch, server.js:638-642). -/
def joinRoom (reg : Registry) (roomId sid username language : String) : Registry :=
  match lookupA reg.rooms roomId with
  | none => reg
  | some users =>
    match findUser users sid with
    | some existingUser =>
      -- re-join: update the member record in place (server.js:561-575);
      -- when the declared language changed, move between language groups
      -- (server.js:577-595)
      if existingUser.language ≠ language then
        match lookupA reg.roomLanguageGroups roomId with
        | some g =>
          { rooms := setA reg.rooms roomId
              (replaceFirst sid ⟨sid, username, language, sid⟩ users),
            roomLanguageGroups := setA reg.roomLanguageGroups roomId
              (setA (moveOldGroup g existingUser.language sid) language
                ((lookupA (moveOldGroup g existingUser.language sid) language).getD [] ++
                  [⟨sid, username, language, sid⟩])) }
        | none =>
          { rooms := setA reg.rooms roomId
              (replaceFirst sid ⟨sid, username, language, sid⟩ users),
            roomLanguageGroups := reg.roomLanguageGroups }
      else
        { rooms := setA reg.rooms roomId
            (replaceFirst sid ⟨sid, username, language, sid⟩ users),
          roomLanguageGroups := reg.roomLanguageGroups }
    | none =>
      -- new member: append and index by language (server.js:596-617)
      { rooms := setA reg.rooms roomId (users ++ [⟨sid, username, language, sid⟩]),
        roomLanguageGroups := setA reg.roomLanguageGroups roomId
          (setA ((lookupA reg.roomLanguageGroups roomId).getD []) language
            ((lookupA ((lookupA reg.roomLanguageGroups roomId).getD []) language).getD [] ++
              [⟨sid, username, language, sid⟩])) }

/-- leaveRoom (server.js:949-993); the disconnect handler calls this once per
room containing the socket (server.js:519-527). -/
def leaveRoom (reg : Registry) (sid roomId : String) : Registry :=
  match lookupA reg.rooms roomId with
  | none => reg
  | some users =>
    match findUser users sid with
    | none => reg
    | some user =>
      if users.filter (fun u => u.socketId != sid) = [] then
        -- empty room: delete the room and its index together (server.js:978-982)
        { rooms := eraseA reg.rooms roomId,
          roomLanguageGroups :=
            eraseA (match lookupA reg.roomLanguageGroups roomId with
                    | some g =>
                      setA reg.roomLanguageGroups roomId (moveOldGroup g user.language sid)
                    | none => reg.roomLanguageGroups) roomId }
      else
        { rooms := setA reg.rooms roomId (users.filter (fun u => u.socketId != sid)),
          roomLanguageGroups :=
            match lookupA reg.roomLanguageGroups roomId with
            | some g => setA reg.roomLanguageGroups roomId (moveOldGroup g user.language sid)
            | none => reg.roomLanguageGroups }

/-- Registry states reachable through the handlers: the initial empty state,
room creation with a fresh id, joinRoom, and leaveRoom (run directly and for
each room on disconnect). -/
inductive Reachable : Registry → Prop
  | init : Reachable Registry.empty
  | create {reg : Registry} {rid : String} : Reachable reg →
      lookupA reg.rooms rid = none → Reachable (createRoom reg rid)
  | join {reg : Registry} {rid sid username language : String} : Reachable reg →
      Reachable (joinRoom reg rid sid username language)
  | leave {reg : Registry} {sid rid : String} : Reachable reg →
      Reachable (leaveRoom reg sid rid)

def socketIds (users : List User) : List String := users.map User.socketId

/-- Per-room well-formedness tying the member array to the language index. -/
structure RoomInv (users : List User) (g : AList (List User)) : Prop where
  usersNodup : (socketIds users).Nodup
  keysNodup : (keysA g).Nodup
  groupsNonempty : ∀ p ∈ g, p.2 ≠ []
  groupsSound : ∀ p ∈ g, ∀ v ∈ p.2, ∃ u ∈ users, u.socketId = v.socketId ∧ u.language = p.1
  groupsComplete : ∀ u ∈ users, ∃ grp, lookupA g u.language = some grp ∧ u.socketId ∈ socketIds grp
  groupsNodup : ∀ p ∈ g, (socketIds p.2).Nodup

/-- Registry-wide invariant: well-formed key sets, no orphaned language
index, and every room's index partitions its member array. -/
structure RegInv (reg : Registry) : Prop where
  roomsKeysNodup : (keysA reg.rooms).Nodup
  groupsKeysNodup : (keysA reg.roomLanguageGroups).Nodup
  orphanFree : ∀ rid, lookupA reg.rooms rid = none →
    lookupA reg.roomLanguageGroups rid = none
  roomsInv : ∀ rid users, lookupA reg.rooms rid = some users →
    RoomInv users ((lookupA reg.roomLanguageGroups rid).getD [])

/-! helper lemmas about the registry list operations -/

theorem findUser_eq_some {users : List User} {sid : String} {u : User}
    (h : findUser users sid = some u) : u ∈ users ∧ u.socketId = sid := by
  induction users with
  | nil => exact absurd h (by simp [findUser])
  | cons w rest ih =>
    rw [findUser] at h
    by_cases hw : w.socketId = sid
    · rw [if_pos hw] at h
      have h2 : w = u := by injection h
      subst h2
      exact ⟨List.mem_cons_self w rest, hw⟩
    · rw [if_neg hw] at h
      have := ih h
      exact ⟨List.mem_cons_of_mem _ this.1, this.2⟩

theorem findUser_eq_none {users : List User} {sid : String}
    (h : findUser users sid = none) : sid ∉ socketIds users := by
  induction users with
  | nil => simp [socketIds]
  | cons w rest ih =>
    rw [findUser] at h
    by_cases hw : w.socketId = sid
    · rw [if_pos hw] at h
      exact absurd h (by simp)
    · rw [if_neg hw] at h
      simp only [socketIds, List.map_cons, List.mem_cons, not_or]
      exact ⟨fun e => hw e.symm, ih h⟩

theorem socketIds_replaceFirst (sid : String) (nu : User) (hnu : nu.socketId = sid)
    (users : List User) :
    socketIds (replaceFirst sid nu users) = socketIds users := by
  induction users with
  | nil => rfl
  | cons u rest ih =>
    rw [replaceFirst]
    by_cases hu : u.socketId = sid
    · rw [if_pos hu]
      simp only [socketIds, List.map_cons]
      rw [hnu, hu]
    · rw [if_neg hu]
      simp only [socketIds, List.map_cons] at ih ⊢
      rw [ih]

theorem mem_replaceFirst {sid : String} {nu v : User} {users : List User}
    (h : v ∈ replaceFirst sid nu users) : v = nu ∨ v ∈ users := by
  induction users with
  | nil => exact absurd h (by simp [replaceFirst])
  | cons u rest ih =>
    rw [replaceFirst] at h
    by_cases hu : u.socketId = sid
    · rw [if_pos hu] at h
      rcases List.mem_cons.mp h with h | h
      · exact Or.inl h
      · exact Or.inr (List.mem_cons_of_mem _ h)
    · rw [if_neg hu] at h
      rcases List.mem_cons.mp h with h | h
      · exact Or.inr (h ▸ List.mem_cons_self u rest)
      · rcases ih h with h2 | h2
        · exact Or.inl h2
        · exact Or.inr (List.mem_cons_of_mem _ h2)

theorem mem_replaceFirst_of_ne {sid : String} {nu u : User} {users : List User}
    (h : u ∈ users) (hne : u.socketId ≠ sid) : u ∈ replaceFirst sid nu users := by
  induction users with
  | nil => exact absurd h (by simp)
  | cons w rest ih =>
    rw [replaceFirst]
    by_cases hw : w.socketId = sid
    · rw [if_pos hw]
      rcases List.mem_cons.mp h with h | h
      · exact absurd (h ▸ hw) hne
      · exact List.mem_cons_of_mem _ h
    · rw [if_neg hw]
      rcases List.mem_cons.mp h with h | h
      · exact List.mem_cons.mpr (Or.inl h)
      · exact List.mem_cons_of_mem _ (ih h)

theorem self_mem_replaceFirst {sid : String} {nu : User} {users : List User}
    (h : sid ∈ socketIds users) : nu ∈ replaceFirst sid nu users := by
  induction users with
  | nil => exact absurd h (by simp [socketIds])
  | cons w rest ih =>
    rw [replaceFirst]
    by_cases hw : w.socketId = sid
    · rw [if_pos hw]
      exact List.mem_cons_self nu _
    · rw [if_neg hw]
      simp only [socketIds, List.map_cons, List.mem_cons] at h
      rcases h with h | h
      · exact absurd h.symm hw
      · exact List.mem_cons_of_mem _ (ih h)

theorem spliceOut_sublist (sid : String) (g : List User) : (spliceOut sid g).Sublist g := by
  induction g with
  | nil => simp [spliceOut]
  | cons u rest ih =>
    rw [spliceOut]
    by_cases hu : u.socketId = sid
    · rw [if_pos hu]
      exact List.sublist_cons_of_sublist u (List.Sublist.refl rest)
    · rw [if_neg hu]
      exact List.Sublist.cons₂ u ih

theorem mem_spliceOut {sid : String} {v : User} {g : List User}
    (h : v ∈ spliceOut sid g) : v ∈ g :=
  (spliceOut_sublist sid g).subset h

theorem mem_spliceOut_of_ne {sid : String} {v : User} {g : List User}
    (h : v ∈ g) (hne : v.socketId ≠ sid) : v ∈ spliceOut sid g := by
  induction g with
  | nil => exact absurd h (by simp)
  | cons u rest ih =>
    rw [spliceOut]
    by_cases hu : u.socketId = sid
    · rw [if_pos hu]
      rcases List.mem_cons.mp h with h | h
      · exact absurd (h ▸ hu) hne
      · exact h
    · rw [if_neg hu]
      rcases List.mem_cons.mp h with h | h
      · exact List.mem_cons.mpr (Or.inl h)
      · exact List.mem_cons_of_mem _ (ih h)

theorem socketIds_spliceOut_nodup {sid : String} {g : List User}
    (h : (socketIds g).Nodup) : (socketIds (spliceOut sid g)).Nodup :=
  List.Nodup.sublist (List.Sublist.map User.socketId (spliceOut_sublist sid g)) h

theorem mem_spliceOut_ne {sid : String} {v : User} {g : List User}
    (hnd : (socketIds g).Nodup) (h : v ∈ spliceOut sid g) : v.socketId ≠ sid := by
  induction g with
  | nil => exact absurd h (by simp [spliceOut])
  | cons u rest ih =>
    simp only [socketIds, List.map_cons, List.nodup_cons] at hnd
    rw [spliceOut] at h
    by_cases hu : u.socketId = sid
    · rw [if_pos hu] at h
      intro e
      exact hnd.1 (hu ▸ e ▸ List.mem_map_of_mem User.socketId h)
    · rw [if_neg hu] at h
      rcases List.mem_cons.mp h with h | h
      · exact h ▸ hu
      · exact ih hnd.2 h

theorem users_inj {users : List User} (hnd : (socketIds users).Nodup)
    {u w : User} (hu : u ∈ users) (hw : w ∈ users) (he : u.socketId = w.socketId) :
    u = w := by
  induction users with
  | nil => exact absurd hu (by simp)
  | cons x rest ih =>
    simp only [socketIds, List.map_cons, List.nodup_cons] at hnd
    rcases List.mem_cons.mp hu with hu2 | hu2 <;> rcases List.mem_cons.mp hw with hw2 | hw2
    · rw [hu2, hw2]
    · subst hu2
      exact absurd (he ▸ List.mem_map_of_mem User.socketId hw2) hnd.1
    · subst hw2
      exact absurd (he ▸ List.mem_map_of_mem User.socketId hu2) hnd.1
    · exact ih hnd.2 hu2 hw2

theorem mem_socketIds {users : List User} {s : String} :
    s ∈ socketIds users ↔ ∃ u ∈ users, u.socketId = s := by
  simp [socketIds]

theorem mem_replaceFirst_strong {sid : String} {nu v : User} {users : List User}
    (hnd : (socketIds users).Nodup) (h : v ∈ replaceFirst sid nu users) :
    v = nu ∨ (v ∈ users ∧ v.socketId ≠ sid) := by
  induction users with
  | nil => exact absurd h (by simp [replaceFirst])
  | cons w rest ih =>
    simp only [socketIds, List.map_cons, List.nodup_cons] at hnd
    rw [replaceFirst] at h
    by_cases hw : w.socketId = sid
    · rw [if_pos hw] at h
      rcases List.mem_cons.mp h with h | h
      · exact Or.inl h
      · refine Or.inr ⟨List.mem_cons_of_mem _ h, fun e => ?_⟩
        exact hnd.1 (hw ▸ e ▸ List.mem_map_of_mem User.socketId h)
    · rw [if_neg hw] at h
      rcases List.mem_cons.mp h with h | h
      · exact Or.inr ⟨List.mem_cons.mpr (Or.inl h), h ▸ hw⟩
      · rcases ih hnd.2 h with h2 | h2
        · exact Or.inl h2
        · exact Or.inr ⟨List.mem_cons_of_mem _ h2.1, h2.2⟩

theorem mem_filter_ne {users : List User} {sid : String} {u : User} :
    u ∈ users.filter (fun w => w.socketId != sid) ↔ u ∈ users ∧ u.socketId ≠ sid := by
  simp [List.mem_filter]

theorem moveOldGroup_none {g : AList (List User)} {ol : String} (sid : String)
    (h : lookupA g ol = none) : moveOldGroup g ol sid = g := by
  unfold moveOldGroup
  rw [h]

theorem moveOldGroup_some_nil {g : AList (List User)} {ol sid : String} {lg : List User}
    (h : lookupA g ol = some lg) (hs : spliceOut sid lg = []) :
    moveOldGroup g ol sid = eraseA g ol := by
  unfold moveOldGroup
  rw [h]
  simp [hs]

theorem moveOldGroup_some_cons {g : AList (List User)} {ol sid : String} {lg : List User}
    (h : lookupA g ol = some lg) (hs : spliceOut sid lg ≠ []) :
    moveOldGroup g ol sid = setA g ol (spliceOut sid lg) := by
  unfold moveOldGroup
  rw [h]
  simp [hs]

theorem keysA_moveOldGroup_nodup {g : AList (List User)} {oldLang sid : String}
    (hnd : (keysA g).Nodup) : (keysA (moveOldGroup g oldLang sid)).Nodup := by
  cases hl : lookupA g oldLang with
  | none => rw [moveOldGroup_none sid hl]; exact hnd
  | some lg =>
    by_cases hs : spliceOut sid lg = []
    · rw [moveOldGroup_some_nil hl hs]
      exact nodup_keysA_eraseA oldLang hnd
    · rw [moveOldGroup_some_cons hl hs]
      exact nodup_keysA_setA oldLang _ hnd

theorem lookupA_moveOldGroup_ne (g : AList (List User)) (ol sid k : String) (h : k ≠ ol) :
    lookupA (moveOldGroup g ol sid) k = lookupA g k := by
  cases hl : lookupA g ol with
  | none => rw [moveOldGroup_none sid hl]
  | some lg =>
    by_cases hs : spliceOut sid lg = []
    · rw [moveOldGroup_some_nil hl hs, lookupA_eraseA_ne _ _ _ h]
    · rw [moveOldGroup_some_cons hl hs, lookupA_setA_ne _ _ _ _ h]

theorem lookupA_moveOldGroup_self {g : AList (List User)} {ol sid : String} {lg : List User}
    (hnd : (keysA g).Nodup) (hl : lookupA g ol = some lg) :
    lookupA (moveOldGroup g ol sid) ol =
      if spliceOut sid lg = [] then none else some (spliceOut sid lg) := by
  by_cases hs : spliceOut sid lg = []
  · rw [moveOldGroup_some_nil hl hs, if_pos hs, lookupA_eraseA_self hnd]
  · rw [moveOldGroup_some_cons hl hs, if_neg hs, lookupA_setA_self]

theorem mem_moveOldGroup {g : AList (List User)} {ol sid : String} {p : String × List User}
    (hnd : (keysA g).Nodup) (h : p ∈ moveOldGroup g ol sid) :
    (p ∈ g ∧ (lookupA g ol = none ∨ p.1 ≠ ol)) ∨
    (∃ lg, lookupA g ol = some lg ∧ p = (ol, spliceOut sid lg) ∧ spliceOut sid lg ≠ []) := by
  cases hl : lookupA g ol with
  | none =>
    rw [moveOldGroup_none sid hl] at h
    exact Or.inl ⟨h, Or.inl rfl⟩
  | some lg =>
    by_cases hs : spliceOut sid lg = []
    · rw [moveOldGroup_some_nil hl hs] at h
      have h2 := mem_eraseA_strong hnd h
      exact Or.inl ⟨h2.1, Or.inr h2.2⟩
    · rw [moveOldGroup_some_cons hl hs] at h
      rcases mem_setA_strong hnd h with h2 | h2
      · exact Or.inr ⟨lg, rfl, h2, hs⟩
      · exact Or.inl ⟨h2.1, Or.inr h2.2⟩

/-- Leaving preserves the per-room invariant when the room survives. -/
theorem roomInv_leave {users : List User} {g : AList (List User)} {sid : String} {user : User}
    (inv : RoomInv users g) (hfind : findUser users sid = some user) :
    RoomInv (users.filter (fun u => u.socketId != sid)) (moveOldGroup g user.language sid) := by
  obtain ⟨huser_mem, huser_sid⟩ := findUser_eq_some hfind
  obtain ⟨ug, hug, hug_mem⟩ := inv.groupsComplete user huser_mem
  refine ⟨?_, keysA_moveOldGroup_nodup inv.keysNodup, ?_, ?_, ?_, ?_⟩
  · exact List.Nodup.sublist
      (List.Sublist.map User.socketId (List.filter_sublist users)) inv.usersNodup
  · intro p hp
    rcases mem_moveOldGroup inv.keysNodup hp with ⟨hpg, _⟩ | ⟨lg, _, hpeq, hs⟩
    · exact inv.groupsNonempty p hpg
    · rw [hpeq]
      exact hs
  · intro p hp v hv
    rcases mem_moveOldGroup inv.keysNodup hp with ⟨hpg, hside⟩ | ⟨lg, hlg, hpeq, _⟩
    · obtain ⟨u, hu_mem, hu_sid, hu_lang⟩ := inv.groupsSound p hpg v hv
      have hne : u.socketId ≠ sid := by
        intro e
        have heq : u = user := users_inj inv.usersNodup hu_mem huser_mem (e.trans huser_sid.symm)
        rcases hside with hnone | hne2
        · rw [hug] at hnone
          cases hnone
        · refine hne2 ?_
          rw [← hu_lang, heq]
      exact ⟨u, mem_filter_ne.mpr ⟨hu_mem, hne⟩, hu_sid, hu_lang⟩
    · subst hpeq
      have hlg_mem : (user.language, lg) ∈ g := lookupA_mem hlg
      have hv_lg : v ∈ lg := mem_spliceOut hv
      have hv_ne : v.socketId ≠ sid := mem_spliceOut_ne (inv.groupsNodup _ hlg_mem) hv
      obtain ⟨u, hu_mem, hu_sid, hu_lang⟩ := inv.groupsSound _ hlg_mem v hv_lg
      exact ⟨u, mem_filter_ne.mpr ⟨hu_mem, fun e => hv_ne (hu_sid ▸ e)⟩, hu_sid, hu_lang⟩
  · intro u hu
    obtain ⟨hu_mem, hu_ne⟩ := mem_filter_ne.mp hu
    obtain ⟨grp, hgrp, hgrp_mem⟩ := inv.groupsComplete u hu_mem
    by_cases hcase : u.language = user.language
    · rw [hcase] at hgrp
      obtain ⟨v, hv_grp, hv_sid⟩ := mem_socketIds.mp hgrp_mem
      have hv_splice : v ∈ spliceOut sid grp :=
        mem_spliceOut_of_ne hv_grp (fun e => hu_ne (hv_sid ▸ e))
      have hsne : spliceOut sid grp ≠ [] := fun e => by
        rw [e] at hv_splice
        exact absurd hv_splice (by simp)
      refine ⟨spliceOut sid grp, ?_, ?_⟩
      · rw [hcase, lookupA_moveOldGroup_self inv.keysNodup hgrp, if_neg hsne]
      · exact mem_socketIds.mpr ⟨v, hv_splice, hv_sid⟩
    · refine ⟨grp, ?_, hgrp_mem⟩
      rw [lookupA_moveOldGroup_ne _ _ _ _ hcase]
      exact hgrp
  · intro p hp
    rcases mem_moveOldGroup inv.keysNodup hp with ⟨hpg, _⟩ | ⟨lg, hlg, hpeq, _⟩
    · exact inv.groupsNodup p hpg
    · rw [hpeq]
      exact socketIds_spliceOut_nodup (inv.groupsNodup _ (lookupA_mem hlg))

/-- A fresh member joining preserves the per-room invariant. -/
theorem roomInv_join_new {users : List User} {g0 : AList (List User)}
    {sid username lang : String}
    (inv : RoomInv users g0) (hfresh : sid ∉ socketIds users) :
    RoomInv (users ++ [⟨sid, username, lang, sid⟩])
      (setA g0 lang ((lookupA g0 lang).getD [] ++ [⟨sid, username, lang, sid⟩])) := by
  refine ⟨?_, nodup_keysA_setA lang _ inv.keysNodup, ?_, ?_, ?_, ?_⟩
  · have he : socketIds (users ++ [⟨sid, username, lang, sid⟩]) = socketIds users ++ [sid] := by
      simp [socketIds]
    rw [he]
    exact List.Nodup.append inv.usersNodup (List.nodup_singleton sid)
      (List.disjoint_singleton.mpr hfresh)
  · intro p hp
    rcases mem_setA_strong inv.keysNodup hp with hpe | ⟨hpg, _⟩
    · rw [hpe]
      simp
    · exact inv.groupsNonempty p hpg
  · intro p hp v hv
    rcases mem_setA_strong inv.keysNodup hp with hpe | ⟨hpg, _⟩
    · subst hpe
      rcases List.mem_append.mp hv with hv2 | hv2
      · cases hl : lookupA g0 lang with
        | none =>
          rw [hl] at hv2
          exact absurd hv2 (by simp)
        | some grp =>
          rw [hl] at hv2
          obtain ⟨u, hu_mem, hu_sid, hu_lang⟩ :=
            inv.groupsSound (lang, grp) (lookupA_mem hl) v (by simpa using hv2)
          exact ⟨u, List.mem_append_left _ hu_mem, hu_sid, hu_lang⟩
      · have hv3 : v = ⟨sid, username, lang, sid⟩ := by simpa using hv2
        exact ⟨⟨sid, username, lang, sid⟩, List.mem_append_right _ (by simp),
          by rw [hv3], rfl⟩
    · obtain ⟨u, hu_mem, hu_sid, hu_lang⟩ := inv.groupsSound p hpg v hv
      exact ⟨u, List.mem_append_left _ hu_mem, hu_sid, hu_lang⟩
  · intro u hu
    rcases List.mem_append.mp hu with hu2 | hu2
    · obtain ⟨grp, hgrp, hgrp_mem⟩ := inv.groupsComplete u hu2
      by_cases hcase : u.language = lang
      · rw [hcase]
        refine ⟨_, lookupA_setA_self _ _ _, ?_⟩
        rw [socketIds, List.map_append]
        refine List.mem_append_left _ ?_
        rw [hcase] at hgrp
        rw [hgrp]
        simpa [socketIds] using hgrp_mem
      · rw [lookupA_setA_ne _ _ _ _ hcase]
        exact ⟨grp, hgrp, hgrp_mem⟩
    · have hu3 : u = ⟨sid, username, lang, sid⟩ := by simpa using hu2
      subst hu3
      refine ⟨_, lookupA_setA_self _ _ _, ?_⟩
      rw [socketIds, List.map_append]
      exact List.mem_append_right _ (by simp)
  · intro p hp
    rcases mem_setA_strong inv.keysNodup hp with hpe | ⟨hpg, _⟩
    · subst hpe
      rw [socketIds, List.map_append]
      refine List.Nodup.append ?_ (by simp) ?_
      · cases hl : lookupA g0 lang with
        | none => simp [hl]
        | some grp =>
          simpa [socketIds] using inv.groupsNodup (lang, grp) (lookupA_mem hl)
      · intro s hs
        simp only [List.map_cons, List.map_nil, List.mem_cons, List.not_mem_nil, or_false]
        intro e
        subst e
        cases hl : lookupA g0 lang with
        | none =>
          rw [hl] at hs
          exact absurd hs (by simp)
        | some grp =>
          rw [hl] at hs
          obtain ⟨v, hv, hveq⟩ := List.mem_map.mp (by simpa using hs)
          obtain ⟨u, hu_mem, hu_sid, _⟩ := inv.groupsSound (lang, grp) (lookupA_mem hl) v hv
          exact hfresh (mem_socketIds.mpr ⟨u, hu_mem, hu_sid.trans hveq⟩)
    · exact inv.groupsNodup p hpg

/-- A re-join that keeps the declared language preserves the invariant
(the language index is untouched, server.js:578 condition false). -/
theorem roomInv_rejoin_same {users : List User} {g : AList (List User)}
    {sid username lang : String} {eu : User}
    (inv : RoomInv users g) (hfind : findUser users sid = some eu)
    (hsame : eu.language = lang) :
    RoomInv (replaceFirst sid ⟨sid, username, lang, sid⟩ users) g := by
  obtain ⟨heu_mem, heu_sid⟩ := findUser_eq_some hfind
  have hsid_mem : sid ∈ socketIds users := mem_socketIds.mpr ⟨eu, heu_mem, heu_sid⟩
  refine ⟨?_, inv.keysNodup, inv.groupsNonempty, ?_, ?_, inv.groupsNodup⟩
  · rw [socketIds_replaceFirst sid ⟨sid, username, lang, sid⟩ rfl users]
    exact inv.usersNodup
  · intro p hp v hv
    obtain ⟨u, hu_mem, hu_sid, hu_lang⟩ := inv.groupsSound p hp v hv
    by_cases he : u.socketId = sid
    · have heq : u = eu := users_inj inv.usersNodup hu_mem heu_mem (he.trans heu_sid.symm)
      refine ⟨⟨sid, username, lang, sid⟩, self_mem_replaceFirst hsid_mem, ?_, ?_⟩
      · show sid = v.socketId
        rw [← he]
        exact hu_sid
      · show lang = p.1
        rw [← hsame, ← heq]
        exact hu_lang
    · exact ⟨u, mem_replaceFirst_of_ne hu_mem he, hu_sid, hu_lang⟩
  · intro u hu
    rcases mem_replaceFirst_strong inv.usersNodup hu with he | ⟨hu_mem, _⟩
    · subst he
      obtain ⟨grp, hgrp, hgrp_mem⟩ := inv.groupsComplete eu heu_mem
      refine ⟨grp, ?_, ?_⟩
      · show lookupA g lang = some grp
        rw [← hsame]
        exact hgrp
      · show sid ∈ socketIds grp
        rw [← heu_sid]
        exact hgrp_mem
    · exact inv.groupsComplete u hu_mem

/-- A re-join that changes the declared language moves the member between
language groups and preserves the invariant (server.js:577-595). -/
theorem roomInv_rejoin_move {users : List User} {g : AList (List User)}
    {sid username lang : String} {eu : User}
    (inv : RoomInv users g) (hfind : findUser users sid = some eu)
    (hdiff : eu.language ≠ lang) :
    RoomInv (replaceFirst sid ⟨sid, username, lang, sid⟩ users)
      (setA (moveOldGroup g eu.language sid) lang
        ((lookupA (moveOldGroup g eu.language sid) lang).getD [] ++
          [⟨sid, username, lang, sid⟩])) := by
  obtain ⟨heu_mem, heu_sid⟩ := findUser_eq_some hfind
  have hsid_mem : sid ∈ socketIds users := mem_socketIds.mpr ⟨eu, heu_mem, heu_sid⟩
  obtain ⟨ug, hug, hug_mem⟩ := inv.groupsComplete eu heu_mem
  have hg1keys : (keysA (moveOldGroup g eu.language sid)).Nodup :=
    keysA_moveOldGroup_nodup inv.keysNodup
  have hlang_ne : lang ≠ eu.language := fun e => hdiff e.symm
  have hlook_lang : lookupA (moveOldGroup g eu.language sid) lang = lookupA g lang :=
    lookupA_moveOldGroup_ne _ _ _ _ hlang_ne
  refine ⟨?_, nodup_keysA_setA lang _ hg1keys, ?_, ?_, ?_, ?_⟩
  · rw [socketIds_replaceFirst sid ⟨sid, username, lang, sid⟩ rfl users]
    exact inv.usersNodup
  · intro p hp
    rcases mem_setA_strong hg1keys hp with hpe | ⟨hpg, _⟩
    · rw [hpe]
      simp
    · rcases mem_moveOldGroup inv.keysNodup hpg with ⟨hpg2, _⟩ | ⟨lg, _, hpeq, hs⟩
      · exact inv.groupsNonempty p hpg2
      · rw [hpeq]
        exact hs
  · intro p hp v hv
    rcases mem_setA_strong hg1keys hp with hpe | ⟨hpg, hp_ne_lang⟩
    · subst hpe
      rcases List.mem_append.mp hv with hv2 | hv2
      · rw [hlook_lang] at hv2
        cases hl : lookupA g lang with
        | none =>
          rw [hl] at hv2
          exact absurd hv2 (by simp)
        | some grp =>
          rw [hl] at hv2
          obtain ⟨u, hu_mem, hu_sid, hu_lang⟩ :=
            inv.groupsSound (lang, grp) (lookupA_mem hl) v (by simpa using hv2)
          have hne : u.socketId ≠ sid := by
            intro e
            have heq : u = eu := users_inj inv.usersNodup hu_mem heu_mem (e.trans heu_sid.symm)
            exact hdiff (by rw [← heq, hu_lang])
          exact ⟨u, mem_replaceFirst_of_ne hu_mem hne, hu_sid, hu_lang⟩
      · have hv3 : v = ⟨sid, username, lang, sid⟩ := by simpa using hv2
        exact ⟨⟨sid, username, lang, sid⟩, self_mem_replaceFirst hsid_mem, by rw [hv3], rfl⟩
    · rcases mem_moveOldGroup inv.keysNodup hpg with ⟨hpg2, hside⟩ | ⟨lg, hlg, hpeq, _⟩
      · obtain ⟨u, hu_mem, hu_sid, hu_lang⟩ := inv.groupsSound p hpg2 v hv
        have hne : u.socketId ≠ sid := by
          intro e
          have heq : u = eu := users_inj inv.usersNodup hu_mem heu_mem (e.trans heu_sid.symm)
          rcases hside with hnone | hne2
          · rw [hug] at hnone
            cases hnone
          · refine hne2 ?_
            rw [← hu_lang, heq]
        exact ⟨u, mem_replaceFirst_of_ne hu_mem hne, hu_sid, hu_lang⟩
      · subst hpeq
        have hlg_mem : (eu.language, lg) ∈ g := lookupA_mem hlg
        have hv_lg : v ∈ lg := mem_spliceOut hv
        have hv_ne : v.socketId ≠ sid := mem_spliceOut_ne (inv.groupsNodup _ hlg_mem) hv
        obtain ⟨u, hu_mem, hu_sid, hu_lang⟩ := inv.groupsSound _ hlg_mem v hv_lg
        exact ⟨u, mem_replaceFirst_of_ne hu_mem (fun e => hv_ne (hu_sid ▸ e)), hu_sid, hu_lang⟩
  · intro u hu
    rcases mem_replaceFirst_strong inv.usersNodup hu with he | ⟨hu_mem, hu_ne⟩
    · subst he
      refine ⟨_, lookupA_setA_self _ _ _, ?_⟩
      rw [socketIds, List.map_append]
      exact List.mem_append_right _ (by simp)
    · obtain ⟨grp, hgrp, hgrp_mem⟩ := inv.groupsComplete u hu_mem
      by_cases hcase : u.language = lang
      · rw [hcase]
        refine ⟨_, lookupA_setA_self _ _ _, ?_⟩
        rw [socketIds, List.map_append]
        refine List.mem_append_left _ ?_
        rw [hcase] at hgrp
        rw [hlook_lang, hgrp]
        simpa [socketIds] using hgrp_mem
      · by_cases hcase2 : u.language = eu.language
        · have hgrp_ol : lookupA g eu.language = some grp := by
            rw [← hcase2]
            exact hgrp
          obtain ⟨v, hv_grp, hv_sid⟩ := mem_socketIds.mp hgrp_mem
          have hv_splice : v ∈ spliceOut sid grp :=
            mem_spliceOut_of_ne hv_grp (fun e => hu_ne (hv_sid ▸ e))
          have hsne : spliceOut sid grp ≠ [] := fun e => by
            rw [e] at hv_splice
            exact absurd hv_splice (by simp)
          refine ⟨spliceOut sid grp, ?_, mem_socketIds.mpr ⟨v, hv_splice, hv_sid⟩⟩
          rw [hcase2, lookupA_setA_ne _ _ _ _ hdiff,
            lookupA_moveOldGroup_self inv.keysNodup hgrp_ol, if_neg hsne]
        · refine ⟨grp, ?_, hgrp_mem⟩
          rw [lookupA_setA_ne _ _ _ _ hcase, lookupA_moveOldGroup_ne _ _ _ _ hcase2]
          exact hgrp
  · intro p hp
    rcases mem_setA_strong hg1keys hp with hpe | ⟨hpg, _⟩
    · subst hpe
      rw [socketIds, List.map_append]
      refine List.Nodup.append ?_ (by simp) ?_
      · rw [hlook_lang]
        cases hl : lookupA g lang with
        | none => simp
        | some grp => simpa [socketIds] using inv.groupsNodup (lang, grp) (lookupA_mem hl)
      · intro s hs
        simp only [List.map_cons, List.map_nil, List.mem_cons, List.not_mem_nil, or_false]
        intro e
        subst e
        rw [hlook_lang] at hs
        cases hl : lookupA g lang with
        | none =>
          rw [hl] at hs
          exact absurd hs (by simp)
        | some grp =>
          rw [hl] at hs
          obtain ⟨v, hv, hveq⟩ := List.mem_map.mp (by simpa using hs)
          obtain ⟨u, hu_mem, hu_sid, hu_lang⟩ :=
            inv.groupsSound (lang, grp) (lookupA_mem hl) v hv
          have heq : u = eu :=
            users_inj inv.usersNodup hu_mem heu_mem ((hu_sid.trans hveq).trans heu_sid.symm)
          exact hdiff (by rw [← heq, hu_lang])
    · rcases mem_moveOldGroup inv.keysNodup hpg with ⟨hpg2, _⟩ | ⟨lg, hlg, hpeq, _⟩
      · exact inv.groupsNodup p hpg2
      · rw [hpeq]
        exact socketIds_spliceOut_nodup (inv.groupsNodup _ (lookupA_mem hlg))

theorem roomInv_nil : RoomInv [] [] := by
  refine ⟨List.nodup_nil, List.nodup_nil, ?_, ?_, ?_, ?_⟩ <;>
    intro p hp <;> exact absurd hp (List.not_mem_nil p)

theorem regInv_empty : RegInv Registry.empty := by
  refine ⟨List.nodup_nil, List.nodup_nil, fun rid _ => rfl, fun rid users h => ?_⟩
  exact absurd h (by simp [Registry.empty])

theorem regInv_createRoom {reg : Registry} {rid : String}
    (h : RegInv reg) (hfresh : lookupA reg.rooms rid = none) :
    RegInv (createRoom reg rid) := by
  refine ⟨nodup_keysA_setA rid [] h.roomsKeysNodup, h.groupsKeysNodup, ?_, ?_⟩
  · intro rid2 hr2
    by_cases he : rid2 = rid
    · rw [he, show (createRoom reg rid).rooms = setA reg.rooms rid [] from rfl,
        lookupA_setA_self] at hr2
      cases hr2
    · rw [show (createRoom reg rid).rooms = setA reg.rooms rid [] from rfl,
        lookupA_setA_ne _ _ _ _ he] at hr2
      exact h.orphanFree rid2 hr2
  · intro rid2 users hr2
    by_cases he : rid2 = rid
    · rw [he] at hr2 ⊢
      rw [show (createRoom reg rid).rooms = setA reg.rooms rid [] from rfl,
        lookupA_setA_self] at hr2
      have husers : users = [] := by
        injection hr2 with h2
        exact h2.symm
      subst husers
      rw [show (createRoom reg rid).roomLanguageGroups = reg.roomLanguageGroups from rfl,
        h.orphanFree rid hfresh]
      exact roomInv_nil
    · rw [show (createRoom reg rid).rooms = setA reg.rooms rid [] from rfl,
        lookupA_setA_ne _ _ _ _ he] at hr2
      exact h.roomsInv rid2 users hr2

/-- Writing one room's state (members and language index) preserves `RegInv`
provided the new per-room state is invariant. -/
theorem regInv_update {reg : Registry} {roomId : String} {users2 : List User}
    {g2 : AList (List User)} (h : RegInv reg) (hinv : RoomInv users2 g2) :
    RegInv { rooms := setA reg.rooms roomId users2,
             roomLanguageGroups := setA reg.roomLanguageGroups roomId g2 } := by
  refine ⟨nodup_keysA_setA _ _ h.roomsKeysNodup,
    nodup_keysA_setA _ _ h.groupsKeysNodup, ?_, ?_⟩
  · intro rid2 hr2
    dsimp only at hr2 ⊢
    by_cases he : rid2 = roomId
    · rw [he, lookupA_setA_self] at hr2
      cases hr2
    · rw [lookupA_setA_ne _ _ _ _ he] at hr2
      rw [lookupA_setA_ne _ _ _ _ he]
      exact h.orphanFree rid2 hr2
  · intro rid2 users3 hr2
    dsimp only at hr2 ⊢
    by_cases he : rid2 = roomId
    · rw [he] at hr2 ⊢
      rw [lookupA_setA_self] at hr2
      have e : users2 = users3 := by injection hr2
      rw [lookupA_setA_self]
      rw [← e]
      exact hinv
    · rw [lookupA_setA_ne _ _ _ _ he] at hr2
      rw [lookupA_setA_ne _ _ _ _ he]
      exact h.roomsInv rid2 users3 hr2

/-- Writing one room's member array without touching the language index
preserves `RegInv` provided the new per-room state is invariant against the
room's existing index. -/
theorem regInv_update_rooms {reg : Registry} {roomId : String} {users2 : List User}
    (h : RegInv reg)
    (hinv : RoomInv users2 ((lookupA reg.roomLanguageGroups roomId).getD [])) :
    RegInv { rooms := setA reg.rooms roomId users2,
             roomLanguageGroups := reg.roomLanguageGroups } := by
  refine ⟨nodup_keysA_setA _ _ h.roomsKeysNodup, h.groupsKeysNodup, ?_, ?_⟩
  · intro rid2 hr2
    dsimp only at hr2 ⊢
    by_cases he : rid2 = roomId
    · rw [he, lookupA_setA_self] at hr2
      cases hr2
    · rw [lookupA_setA_ne _ _ _ _ he] at hr2
      exact h.orphanFree rid2 hr2
  · intro rid2 users3 hr2
    dsimp only at hr2 ⊢
    by_cases he : rid2 = roomId
    · rw [he] at hr2 ⊢
      rw [lookupA_setA_self] at hr2
      have e : users2 = users3 := by injection hr2
      rw [← e]
      exact hinv
    · rw [lookupA_setA_ne _ _ _ _ he] at hr2
      exact h.roomsInv rid2 users3 hr2

/-- Deleting a room together with its index entry preserves `RegInv`, for any
intermediate group table that agrees with the original outside the room. -/
theorem regInv_delete {reg : Registry} {roomId : String}
    {groups2 : AList (AList (List User))} (h : RegInv reg)
    (hkeys : (keysA groups2).Nodup)
    (hother : ∀ rid2, rid2 ≠ roomId →
      lookupA groups2 rid2 = lookupA reg.roomLanguageGroups rid2) :
    RegInv { rooms := eraseA reg.rooms roomId,
             roomLanguageGroups := eraseA groups2 roomId } := by
  refine ⟨nodup_keysA_eraseA _ h.roomsKeysNodup, nodup_keysA_eraseA _ hkeys, ?_, ?_⟩
  · intro rid2 hr2
    dsimp only at hr2 ⊢
    by_cases he : rid2 = roomId
    · rw [he, lookupA_eraseA_self hkeys]
    · rw [lookupA_eraseA_ne _ _ _ he] at hr2
      rw [lookupA_eraseA_ne _ _ _ he, hother rid2 he]
      exact h.orphanFree rid2 hr2
  · intro rid2 users3 hr2
    dsimp only at hr2 ⊢
    by_cases he : rid2 = roomId
    · rw [he, lookupA_eraseA_self h.roomsKeysNodup] at hr2
      cases hr2
    · rw [lookupA_eraseA_ne _ _ _ he] at hr2
      rw [lookupA_eraseA_ne _ _ _ he, hother rid2 he]
      exact h.roomsInv rid2 users3 hr2

/-- joinRoom preserves the registry invariant. -/
theorem regInv_joinRoom (reg : Registry) (roomId sid username language : String)
    (h : RegInv reg) : RegInv (joinRoom reg roomId sid username language) := by
  unfold joinRoom
  cases hr : lookupA reg.rooms roomId with
  | none => exact h
  | some users =>
    dsimp only
    have hroom := h.roomsInv roomId users hr
    cases hf : findUser users sid with
    | none =>
      dsimp only
      have hfresh : sid ∉ socketIds users := findUser_eq_none hf
      exact regInv_update h (roomInv_join_new hroom hfresh)
    | some existingUser =>
      dsimp only
      obtain ⟨heu_mem, heu_sid⟩ := findUser_eq_some hf
      by_cases hd : existingUser.language ≠ language
      · rw [if_pos hd]
        cases hg : lookupA reg.roomLanguageGroups roomId with
        | none =>
          exfalso
          rw [hg] at hroom
          obtain ⟨grp, hgrp, _⟩ := hroom.groupsComplete existingUser heu_mem
          exact absurd hgrp (by simp)
        | some g =>
          dsimp only
          rw [hg] at hroom
          exact regInv_update h (roomInv_rejoin_move hroom hf hd)
      · rw [if_neg hd]
        have hd2 : existingUser.language = language := not_not.mp hd
        exact regInv_update_rooms h (roomInv_rejoin_same hroom hf hd2)

/-- leaveRoom preserves the registry invariant. -/
theorem regInv_leaveRoom (reg : Registry) (sid roomId : String)
    (h : RegInv reg) : RegInv (leaveRoom reg sid roomId) := by
  unfold leaveRoom
  cases hr : lookupA reg.rooms roomId with
  | none => exact h
  | some users =>
    dsimp only
    have hroom := h.roomsInv roomId users hr
    cases hf : findUser users sid with
    | none => exact h
    | some user =>
      dsimp only
      obtain ⟨huser_mem, huser_sid⟩ := findUser_eq_some hf
      by_cases hempty : users.filter (fun u => u.socketId != sid) = []
      · rw [if_pos hempty]
        cases hg : lookupA reg.roomLanguageGroups roomId with
        | none =>
          exact regInv_delete h h.groupsKeysNodup (fun rid2 _ => rfl)
        | some g =>
          dsimp only
          refine regInv_delete h (nodup_keysA_setA _ _ h.groupsKeysNodup) ?_
          intro rid2 hne
          exact lookupA_setA_ne _ _ _ _ hne
      · rw [if_neg hempty]
        cases hg : lookupA reg.roomLanguageGroups roomId with
        | none =>
          exfalso
          rw [hg] at hroom
          obtain ⟨grp, hgrp, _⟩ := hroom.groupsComplete user huser_mem
          exact absurd hgrp (by simp)
        | some g =>
          dsimp only
          rw [hg] at hroom
          exact regInv_update h (roomInv_leave hroom hf)

/-- Every reachable registry state satisfies the invariant. -/
theorem reachable_regInv {reg : Registry} (h : Reachable reg) : RegInv reg := by
  induction h with
  | init => exact regInv_empty
  | create hreach hfresh ih => exact regInv_createRoom ih hfresh
  | join hreach ih => exact regInv_joinRoom _ _ _ _ _ ih
  | leave hreach ih => exact regInv_leaveRoom _ _ _ ih

/-- The partition property asserted by the spec: the union of the
language-group member sets equals the room's member sequence (as sets of
socket ids, the identity by which the claim identifies members), and no
socket id appears in more than one group. -/
def LangPartition (users : List User) (g : AList (List User)) : Prop :=
  (socketIds ((g.map Prod.snd).flatten)).toFinset = (socketIds users).toFinset ∧
  List.Pairwise (fun p q : String × List User =>
    ∀ s ∈ socketIds p.2, s ∉ socketIds q.2) g

theorem roomInv_langPartition {users : List User} {g : AList (List User)}
    (inv : RoomInv users g) : LangPartition users g := by
  constructor
  · apply Finset.ext
    intro s
    simp only [List.mem_toFinset]
    constructor
    · intro hs
      obtain ⟨v, hv, hveq⟩ := mem_socketIds.mp hs
      obtain ⟨grp, hgrp_mem, hv_grp⟩ := List.mem_flatten.mp hv
      obtain ⟨p, hp_mem, hp_eq⟩ := List.mem_map.mp hgrp_mem
      obtain ⟨u, hu_mem, hu_sid, _⟩ := inv.groupsSound p hp_mem v (hp_eq ▸ hv_grp)
      exact mem_socketIds.mpr ⟨u, hu_mem, hu_sid.trans hveq⟩
    · intro hs
      obtain ⟨u, hu_mem, hueq⟩ := mem_socketIds.mp hs
      obtain ⟨grp, hgrp, hgrp_mem⟩ := inv.groupsComplete u hu_mem
      obtain ⟨v, hv_grp, hveq⟩ := mem_socketIds.mp hgrp_mem
      refine mem_socketIds.mpr ⟨v, ?_, hveq.trans hueq⟩
      exact List.mem_flatten.mpr ⟨grp,
        List.mem_map.mpr ⟨(u.language, grp), lookupA_mem hgrp, rfl⟩, hv_grp⟩
  · have hpw : List.Pairwise (fun p q : String × List User => p.1 ≠ q.1) g :=
      List.pairwise_map.mp inv.keysNodup
    refine hpw.imp_of_mem ?_
    intro p q hp hq hne s hsp hsq
    obtain ⟨vp, hvp, hvpe⟩ := mem_socketIds.mp hsp
    obtain ⟨vq, hvq, hvqe⟩ := mem_socketIds.mp hsq
    obtain ⟨up, hup_mem, hup_sid, hup_lang⟩ := inv.groupsSound p hp vp hvp
    obtain ⟨uq, huq_mem, huq_sid, huq_lang⟩ := inv.groupsSound q hq vq hvq
    have he : up = uq := users_inj inv.usersNodup hup_mem huq_mem
      ((hup_sid.trans hvpe).trans ((huq_sid.trans hvqe)).symm)
    exact hne (hup_lang.symm.trans (he ▸ huq_lang))

/-- C2: for every active room and after every registry operation (join,
re-join with language change, leave, disconnect — i.e. in every reachable
registry state) the union of the room's language-group member sets equals the
room's member sequence as sets of socket ids, and no member (identified by
socket id) appears in more than one language group. -/
theorem c2_language_groups_partition {reg : Registry} (h : Reachable reg)
    (rid : String) (users : List User)
    (hlook : lookupA reg.rooms rid = some users) :
    LangPartition users ((lookupA reg.roomLanguageGroups rid).getD []) :=
  roomInv_langPartition ((reachable_regInv h).roomsInv rid users hlook)

/-- Witness: a concrete reachable registry (create then join) evaluated at
the claim theorem. -/
theorem c2_language_groups_partition_witness :
    LangPartition [⟨"s1", "alice", "en", "s1"⟩]
      ((lookupA (joinRoom (createRoom Registry.empty "1abcde")
          "1abcde" "s1" "alice" "en").roomLanguageGroups "1abcde").getD []) :=
  c2_language_groups_partition
    (Reachable.join (Reachable.create Reachable.init rfl))
    "1abcde" [⟨"s1", "alice", "en", "s1"⟩] rfl

/-- C3 counterexample: immediately after room creation the room exists in
the registry with zero members (`rooms[roomId] = { users: [] }`,
server.js:312/550), refuting "a room exists iff it has at least one member"
and "creation never yields an existing room with zero members". -/
theorem c3_counterexample_created_room_is_empty :
    lookupA (createRoom Registry.empty "1abcde").rooms "1abcde" = some [] := rfl

/-- C3 amended: room creation stores an (existing) room with an empty member
array, so "exists iff nonempty" fails between creation and first join; the
deletion half of the claim holds: when the last member leaves, the room and
its entire language index are deleted in the same step. -/
theorem c3_last_leave_deletes_room_and_index {reg : Registry} (h : Reachable reg)
    (sid rid : String) (u : User)
    (hlook : lookupA reg.rooms rid = some [u]) (hsid : u.socketId = sid) :
    lookupA (leaveRoom reg sid rid).rooms rid = none ∧
    lookupA (leaveRoom reg sid rid).roomLanguageGroups rid = none ∧
    ∀ (reg2 : Registry) (rid2 : String),
      lookupA (createRoom reg2 rid2).rooms rid2 = some [] := by
  have hinv := reachable_regInv h
  have hfind : findUser [u] sid = some u := by
    unfold findUser
    rw [if_pos hsid]
  have hfilter : List.filter (fun w => w.socketId != sid) [u] = [] := by
    simp [List.filter, hsid]
  unfold leaveRoom
  rw [hlook]
  dsimp only
  rw [hfind]
  dsimp only
  rw [if_pos hfilter]
  refine ⟨lookupA_eraseA_self hinv.roomsKeysNodup, ?_, ?_⟩
  · cases hg : lookupA reg.roomLanguageGroups rid with
    | none => exact lookupA_eraseA_self hinv.groupsKeysNodup
    | some g => exact lookupA_eraseA_self (nodup_keysA_setA _ _ hinv.groupsKeysNodup)
  · intro reg2 rid2
    exact lookupA_setA_self _ _ _

/-- Witness for the C3 amended theorem at a concrete one-member room. -/
theorem c3_last_leave_deletes_room_and_index_witness :
    lookupA (leaveRoom (joinRoom (createRoom Registry.empty "1abcde")
        "1abcde" "s1" "alice" "en") "s1" "1abcde").rooms "1abcde" = none ∧
    lookupA (leaveRoom (joinRoom (createRoom Registry.empty "1abcde")
        "1abcde" "s1" "alice" "en") "s1" "1abcde").roomLanguageGroups "1abcde" = none ∧
    ∀ (reg2 : Registry) (rid2 : String),
      lookupA (createRoom reg2 rid2).rooms rid2 = some [] :=
  c3_last_leave_deletes_room_and_index
    (Reachable.join (Reachable.create Reachable.init rfl))
    "s1" "1abcde" ⟨"s1", "alice", "en", "s1"⟩ rfl rfl

/-! ## Utterance pipeline (server.js:733-947) -/

/-- `MAX_AUDIO_DURATION = 60` seconds (server.js:42). -/
def MAX_AUDIO_DURATION : Nat := 60

/-- `MAX_FILE_SIZE = 10 * 1024 * 1024` bytes (server.js:43). -/
def MAX_FILE_SIZE : Nat := 10 * 1024 * 1024

/-- An outbound socket message: `translatedAudio` payloads
(server.js:818-824, 855-863, 908-916), `errorMessage` payloads
(server.js:666-667, 673-674, 921-924) and the `processingStatusUpdate`
broadcast (server.js:680). `target` is the destination socket id. -/
inductive Msg where
  | translatedAudio (target username text : String) (audio : Option String)
      (language : String) (isTranslation : Bool)
  | errorMessage (target message : String) (username : Option String)
  | processingStatus (roomId username : String)
deriving DecidableEq, Repr

/-- One external OpenAI call made by the pipeline, in order: the Whisper
transcription (server.js:806), the same-language TTS (server.js:842), and
per-target-language translation (server.js:869) and TTS (server.js:890). -/
inductive Call where
  | transcribe
  | synthSame
  | translateFor (lang : String)
  | synthFor (lang : String)
deriving DecidableEq, Repr

def Call.isTranslate : Call → Bool
  | Call.translateFor _ => true
  | _ => false

def Call.isSynth : Call → Bool
  | Call.synthFor _ => true
  | _ => false

/-- The set of temp-directory files that currently exist. -/
abbrev FS := List String

/-- `fs.writeFileSync` of a fresh artifact (server.js:760 and the ffmpeg
output at 772). -/
def writeFile (p : String) (fs : FS) : FS := if p ∈ fs then fs else p :: fs

/-- Oracle for one processAudioData invocation: the request data plus the
outcome of every external call, and the room state observed at each read
point.  Reads of `room.users` at distinct `await` boundaries may observe
different lists because joins/leaves/disconnects interleave at suspension
points: `roomAtFetch` is `rooms[roomId]` at server.js:795 (the sender lookup
at 800 uses it), `usersAtPartition` is the `room.users` read at the
partition step 830, `usersAtTarget lang` is the `room.users` read at 903
inside that language's loop iteration, and `roomAtCatch` is the
`rooms[roomId]?.users` read inside the catch handler at 920. -/
structure PipeEnv where
  senderId : String
  audioLen : Nat
  tempName : String
  wavName : String
  convertOk : Bool
  probe : Option Nat
  roomAtFetch : Option (List User)
  transcription : Option String
  synthSame : Option String
  translateFor : String → Option String
  synthFor : String → String → Option String
  usersAtPartition : List User
  usersAtTarget : String → List User
  roomAtCatch : Option (List User)

/-- JS `String.prototype.trim()` (used at server.js:813 and 887): strip
whitespace from both ends.  (Structural model of `.trim()`; Lean's own
`String.trim` is not used because its definition is not kernel-reducible.) -/
def jsTrim (s : String) : String :=
  ⟨((s.data.dropWhile Char.isWhitespace).reverse.dropWhile Char.isWhitespace).reverse⟩

/-- JS `Set` built by insertion (`targetLanguages.add`, server.js:835):
iteration order keeps the first occurrence of each element. -/
def insertionDedup (l : List String) : List String :=
  l.foldl (fun acc x => if x ∈ acc then acc else acc ++ [x]) []

/-- The `sameLanguageUsers` array built by the partition forEach
(server.js:830-838). -/
def sameLanguageUsers (users : List User) (senderId senderLang : String) : List User :=
  users.filter (fun u => u.socketId != senderId && u.language == senderLang)

/-- The `targetLanguages` Set built by the partition forEach
(server.js:827-838): distinct languages of other members that differ from
the sender's. -/
def targetLanguages (users : List User) (senderId senderLang : String) : List String :=
  insertionDedup
    ((users.filter (fun u => u.socketId != senderId && u.language != senderLang)).map
      User.language)

/-- The per-target-language loop (server.js:867-917).  Returns the emitted
messages, the external calls made (in order), and the error that aborted the
loop, if any: the loop body runs inside the single enclosing try, so a throw
from a translation or TTS call propagates out and the remaining languages
are not processed.  `targetUsers` is re-read from `room.users` at delivery
time (server.js:903-905). -/
def fanOutLoop (env : PipeEnv) (senderName senderSocketId : String) :
    List String → List Msg × List Call × Option String
  | [] => ([], [], none)
  | lang :: rest =>
    match env.translateFor lang with
    | none => ([], [Call.translateFor lang], some "translation request failed")
    | some content =>
      match env.synthFor lang (jsTrim content) with
      | none =>
        ([], [Call.translateFor lang, Call.synthFor lang], some "speech request failed")
      | some audio =>
        let r := fanOutLoop env senderName senderSocketId rest
        (((env.usersAtTarget lang).filter
            (fun u => u.language == lang && u.socketId != senderSocketId)).map
            (fun u => Msg.translatedAudio u.socketId senderName (jsTrim content)
              (some audio) lang true) ++ r.1,
          Call.translateFor lang :: Call.synthFor lang :: r.2.1, r.2.2)

/-- Result of the try block: messages emitted before any throw, external
calls made, the thrown error (if any), the two artifact path variables
(`null` until assigned, server.js:734-735), and the temp-file state. -/
structure TryResult where
  msgs : List Msg
  calls : List Call
  err : Option String
  tempFilePath : Option String
  wavFilePath : Option String
  fs : FS
deriving Repr

/-- The try block of processAudioData (server.js:737-917): size validation,
artifact writes, transcoding, duration check, stale-state re-checks, the
transcription, the echo to the speaker, the same-language branch and the
per-target-language fan-out.  Every throw ends the block with `err` set;
messages already emitted stay emitted. -/
def tryBody (env : PipeEnv) (fs : FS) : TryResult :=
  if env.audioLen > MAX_FILE_SIZE then
    -- validateAudio throw (server.js:318-323, called at 751)
    ⟨[], [], some "Audio file too large", none, none, fs⟩
  else if env.convertOk = false then
    -- ffmpeg conversion rejected (server.js:717-730); wav not produced
    ⟨[], [], some "ffmpeg conversion failed", some env.tempName, none,
      writeFile env.tempName fs⟩
  else
    match env.probe with
    | none =>
      -- ffprobe error (server.js:940-947)
      ⟨[], [], some "ffprobe failed", some env.tempName, some env.wavName,
        writeFile env.wavName (writeFile env.tempName fs)⟩
    | some duration =>
      if duration > MAX_AUDIO_DURATION then
        ⟨[], [], some "Audio duration exceeds maximum limit", some env.tempName,
          some env.wavName, writeFile env.wavName (writeFile env.tempName fs)⟩
      else
        match env.roomAtFetch with
        | none =>
          ⟨[], [], some "Room not found", some env.tempName, some env.wavName,
            writeFile env.wavName (writeFile env.tempName fs)⟩
        | some usersAtFetch =>
          match findUser usersAtFetch env.senderId with
          | none =>
            ⟨[], [], some "Sender not found in room", some env.tempName,
              some env.wavName, writeFile env.wavName (writeFile env.tempName fs)⟩
          | some sender =>
            match env.transcription with
            | none =>
              ⟨[], [Call.transcribe], some "transcription request failed",
                some env.tempName, some env.wavName,
                writeFile env.wavName (writeFile env.tempName fs)⟩
            | some transcription =>
              if jsTrim transcription = "" then
                ⟨[], [Call.transcribe], some "Transcription returned empty text.",
                  some env.tempName, some env.wavName,
                  writeFile env.wavName (writeFile env.tempName fs)⟩
              else if (sameLanguageUsers env.usersAtPartition env.senderId
                  sender.language).length > 0 then
                match env.synthSame with
                | none =>
                  ⟨[Msg.translatedAudio env.senderId sender.username transcription
                      none sender.language false],
                    [Call.transcribe, Call.synthSame], some "speech request failed",
                    some env.tempName, some env.wavName,
                    writeFile env.wavName (writeFile env.tempName fs)⟩
                | some audio =>
                  ⟨Msg.translatedAudio env.senderId sender.username transcription
                      none sender.language false ::
                    ((sameLanguageUsers env.usersAtPartition env.senderId
                        sender.language).map (fun u =>
                      Msg.translatedAudio u.socketId sender.username transcription
                        (some audio) sender.language false) ++
                      (fanOutLoop env sender.username sender.socketId
                        (targetLanguages env.usersAtPartition env.senderId
                          sender.language)).1),
                    Call.transcribe :: Call.synthSame ::
                      (fanOutLoop env sender.username sender.socketId
                        (targetLanguages env.usersAtPartition env.senderId
                          sender.language)).2.1,
                    (fanOutLoop env sender.username sender.socketId
                      (targetLanguages env.usersAtPartition env.senderId
                        sender.language)).2.2,
                    some env.tempName, some env.wavName,
                    writeFile env.wavName (writeFile env.tempName fs)⟩
              else
                ⟨Msg.translatedAudio env.senderId sender.username transcription
                    none sender.language false ::
                  (fanOutLoop env sender.username sender.socketId
                    (targetLanguages env.usersAtPartition env.senderId
                      sender.language)).1,
                  Call.transcribe ::
                    (fanOutLoop env sender.username sender.socketId
                      (targetLanguages env.usersAtPartition env.senderId
                        sender.language)).2.1,
                  (fanOutLoop env sender.username sender.socketId
                    (targetLanguages env.usersAtPartition env.senderId
                      sender.language)).2.2,
                  some env.tempName, some env.wavName,
                  writeFile env.wavName (writeFile env.tempName fs)⟩

/-- `fs.unlinkSync` (server.js:930): a failing unlink leaves the file and is
only logged (server.js:931-933). -/
def unlinkFile (unlinkFails : String → Bool) (p : String) (fs : FS) : FS :=
  if unlinkFails p then fs else fs.erase p

/-- One iteration of the finally loop (server.js:927-935):
`if (filePath && fs.existsSync(filePath)) try unlink catch log`. -/
def cleanupOne (unlinkFails : String → Bool) (p : Option String) (fs : FS) : FS :=
  match p with
  | none => fs
  | some path => if path ∈ fs then unlinkFile unlinkFails path fs else fs

/-- The finally block (server.js:925-936), iterating
`[tempFilePath, wavFilePath]` in order. -/
def cleanupFiles (unlinkFails : String → Bool) (tempP wavP : Option String)
    (fs : FS) : FS :=
  cleanupOne unlinkFails wavP (cleanupOne unlinkFails tempP fs)

/-- processAudioData (server.js:733-937): the try body, the catch that
reports the error only to the sender's socket tagged with the sender's
username re-read from the registry (server.js:919-924), and the finally
cleanup.  Returns the emitted messages, the external calls, and the final
temp-file state. -/
def processAudioData (env : PipeEnv) (unlinkFails : String → Bool) (fs : FS) :
    List Msg × List Call × FS :=
  let r := tryBody env fs
  (r.msgs ++
      (match r.err with
       | none => []
       | some m =>
         [Msg.errorMessage env.senderId m
           (env.roomAtCatch.bind (fun us => (findUser us env.senderId).map User.username))]),
    r.calls,
    cleanupFiles unlinkFails r.tempFilePath r.wavFilePath r.fs)

/-- On every exit path the try block leaves one of exactly three artifact
configurations: nothing written, only the raw file, or both files. -/
theorem tryBody_artifacts (env : PipeEnv) (fs : FS) :
    ((tryBody env fs).tempFilePath = none ∧ (tryBody env fs).wavFilePath = none ∧
      (tryBody env fs).fs = fs) ∨
    ((tryBody env fs).tempFilePath = some env.tempName ∧
      (tryBody env fs).wavFilePath = none ∧
      (tryBody env fs).fs = writeFile env.tempName fs) ∨
    ((tryBody env fs).tempFilePath = some env.tempName ∧
      (tryBody env fs).wavFilePath = some env.wavName ∧
      (tryBody env fs).fs = writeFile env.wavName (writeFile env.tempName fs)) := by
  unfold tryBody
  repeat' split
  all_goals simp

/-- C10 (confirmed): for every pipeline invocation and every exit path, both
ephemeral artifacts created during the invocation are deleted by the finally
block when the unlink calls succeed — the temp-file state returns to exactly
what it was before the invocation — and unlink outcomes never change the
emitted messages or the calls made (deletion failures are logged, never
escalated into a pipeline error). -/
theorem c10_cleanup_every_exit_path (env : PipeEnv) (unlinkFails : String → Bool)
    (fs0 : FS) (h1 : env.tempName ∉ fs0) (h2 : env.wavName ∉ fs0)
    (h3 : env.tempName ≠ env.wavName)
    (h4 : unlinkFails env.tempName = false) (h5 : unlinkFails env.wavName = false) :
    (processAudioData env unlinkFails fs0).2.2 = fs0 ∧
    ∀ g : String → Bool,
      (processAudioData env g fs0).1 = (processAudioData env unlinkFails fs0).1 ∧
      (processAudioData env g fs0).2.1 = (processAudioData env unlinkFails fs0).2.1 := by
  refine ⟨?_, fun g => ⟨rfl, rfl⟩⟩
  show cleanupFiles unlinkFails (tryBody env fs0).tempFilePath
    (tryBody env fs0).wavFilePath (tryBody env fs0).fs = fs0
  have hw1 : writeFile env.tempName fs0 = env.tempName :: fs0 := by
    rw [writeFile, if_neg h1]
  have hw2 : writeFile env.wavName (env.tempName :: fs0) = env.wavName :: env.tempName :: fs0 := by
    rw [writeFile, if_neg]
    intro hmem
    rcases List.mem_cons.mp hmem with he | hmem2
    · exact h3 he.symm
    · exact h2 hmem2
  have hhead : ∀ (p : String) (t : FS), unlinkFails p = false →
      cleanupOne unlinkFails (some p) (p :: t) = t := by
    intro p t hp
    unfold cleanupOne unlinkFile
    dsimp only
    rw [if_pos (List.mem_cons_self p t),
      if_neg (by rw [hp]; exact Bool.false_ne_true), List.erase_cons_head]
  have hsecond : ∀ (p q : String) (t : FS), q ≠ p → unlinkFails p = false →
      cleanupOne unlinkFails (some p) (q :: p :: t) = q :: t := by
    intro p q t hne hp
    unfold cleanupOne unlinkFile
    dsimp only
    rw [if_pos (List.mem_cons_of_mem q (List.mem_cons_self p t)),
      if_neg (by rw [hp]; exact Bool.false_ne_true)]
    simp [List.erase_cons, hne]
  rcases tryBody_artifacts env fs0 with ⟨ht, hw, hf⟩ | ⟨ht, hw, hf⟩ | ⟨ht, hw, hf⟩ <;>
    rw [ht, hw, hf]
  · rfl
  · rw [hw1]
    show cleanupOne unlinkFails none
      (cleanupOne unlinkFails (some env.tempName) (env.tempName :: fs0)) = fs0
    rw [hhead env.tempName fs0 h4]
    rfl
  · rw [hw1, hw2]
    show cleanupOne unlinkFails (some env.wavName)
      (cleanupOne unlinkFails (some env.tempName)
        (env.wavName :: env.tempName :: fs0)) = fs0
    rw [hsecond env.tempName env.wavName fs0 (fun e => h3 e.symm) h4]
    exact hhead env.wavName fs0 h5

/-- Witness for C10 at a concrete invocation (a pipeline run that fails at
the duration check, exercising cleanup on an error path). -/
theorem c10_cleanup_every_exit_path_witness :
    (processAudioData
        ⟨"s", 4, "a.mp4", "a.wav", true, some 61, none, none, none,
          fun _ => none, fun _ _ => none, [], fun _ => [], none⟩
        (fun _ => false) []).2.2 = ([] : FS) ∧
    ∀ g : String → Bool,
      (processAudioData
          ⟨"s", 4, "a.mp4", "a.wav", true, some 61, none, none, none,
            fun _ => none, fun _ _ => none, [], fun _ => [], none⟩
          g []).1 =
        (processAudioData
          ⟨"s", 4, "a.mp4", "a.wav", true, some 61, none, none, none,
            fun _ => none, fun _ _ => none, [], fun _ => [], none⟩
          (fun _ => false) []).1 ∧
      (processAudioData
          ⟨"s", 4, "a.mp4", "a.wav", true, some 61, none, none, none,
            fun _ => none, fun _ _ => none, [], fun _ => [], none⟩
          g []).2.1 =
        (processAudioData
          ⟨"s", 4, "a.mp4", "a.wav", true, some 61, none, none, none,
            fun _ => none, fun _ _ => none, [], fun _ => [], none⟩
          (fun _ => false) []).2.1 :=
  c10_cleanup_every_exit_path
    ⟨"s", 4, "a.mp4", "a.wav", true, some 61, none, none, none,
      fun _ => none, fun _ _ => none, [], fun _ => [], none⟩
    (fun _ => false) [] (by simp) (by simp) (by simp) rfl rfl

theorem mem_insertionDedup_aux (l acc : List String) (x : String) :
    x ∈ l.foldl (fun acc y => if y ∈ acc then acc else acc ++ [y]) acc ↔
      x ∈ acc ∨ x ∈ l := by
  induction l generalizing acc with
  | nil => simp
  | cons y t ih =>
    simp only [List.foldl_cons]
    by_cases hy : y ∈ acc
    · rw [if_pos hy, ih]
      constructor
      · rintro (h | h)
        · exact Or.inl h
        · exact Or.inr (List.mem_cons_of_mem _ h)
      · rintro (h | h)
        · exact Or.inl h
        · rcases List.mem_cons.mp h with he | h2
          · exact Or.inl (he ▸ hy)
          · exact Or.inr h2
    · rw [if_neg hy, ih]
      simp only [List.mem_append, List.mem_singleton, List.mem_cons]
      tauto

theorem nodup_insertionDedup_aux (l acc : List String) (h : acc.Nodup) :
    (l.foldl (fun acc y => if y ∈ acc then acc else acc ++ [y]) acc).Nodup := by
  induction l generalizing acc with
  | nil => exact h
  | cons y t ih =>
    simp only [List.foldl_cons]
    by_cases hy : y ∈ acc
    · rw [if_pos hy]
      exact ih _ h
    · rw [if_neg hy]
      exact ih _ (List.Nodup.append h (List.nodup_singleton y)
        (List.disjoint_singleton.mpr hy))

theorem mem_insertionDedup {l : List String} {x : String} :
    x ∈ insertionDedup l ↔ x ∈ l := by
  rw [insertionDedup, mem_insertionDedup_aux]
  simp

theorem nodup_insertionDedup (l : List String) : (insertionDedup l).Nodup :=
  nodup_insertionDedup_aux l [] List.nodup_nil

/-- The insertion-ordered dedup has exactly one element per distinct value. -/
theorem length_insertionDedup (l : List String) :
    (insertionDedup l).length = l.toFinset.card := by
  have h1 : (insertionDedup l).toFinset = l.toFinset := by
    apply Finset.ext
    intro x
    simp [mem_insertionDedup]
  calc (insertionDedup l).length = (insertionDedup l).toFinset.card :=
        (List.toFinset_card_of_nodup (nodup_insertionDedup l)).symm
    _ = l.toFinset.card := by rw [h1]

/-- When every translation and synthesis call succeeds, the loop makes
exactly one translation call and one synthesis call per listed language and
raises no error. -/
theorem fanOutLoop_calls_of_success (env : PipeEnv) (senderName senderSocketId : String)
    (langs : List String)
    (hok : ∀ l ∈ langs, (env.translateFor l).isSome ∧ ∀ t, (env.synthFor l t).isSome) :
    ((fanOutLoop env senderName senderSocketId langs).2.1.filter Call.isTranslate).length
        = langs.length ∧
    ((fanOutLoop env senderName senderSocketId langs).2.1.filter Call.isSynth).length
        = langs.length ∧
    (fanOutLoop env senderName senderSocketId langs).2.2 = none := by
  induction langs with
  | nil => exact ⟨rfl, rfl, rfl⟩
  | cons lang rest ih =>
    obtain ⟨hok1, hok2⟩ := hok lang (List.mem_cons_self _ _)
    obtain ⟨c, hc⟩ := Option.isSome_iff_exists.mp hok1
    obtain ⟨a, ha⟩ := Option.isSome_iff_exists.mp (hok2 (jsTrim c))
    obtain ⟨ih1, ih2, ih3⟩ := ih (fun l hl => hok l (List.mem_cons_of_mem _ hl))
    unfold fanOutLoop
    rw [hc]
    dsimp only
    rw [ha]
    dsimp only
    refine ⟨?_, ?_, ih3⟩
    · rw [List.filter_cons, List.filter_cons]
      simp only [Call.isTranslate, Call.isSynth]
      simp [ih1]
    · rw [List.filter_cons, List.filter_cons]
      simp only [Call.isTranslate, Call.isSynth]
      simp [ih2]

/-- C4 (confirmed): when the pipeline reaches the fan-out and every external
call succeeds, the translated branch performs exactly M translation calls
and exactly M synthesis calls, where M is the number of distinct languages
(duplicates collapsed) among the other members whose language differs from
the sender's — independent of how many members share each language. -/
theorem c4_one_call_per_distinct_language (env : PipeEnv)
    (usersAtFetch : List User) (sender : User) (duration : Nat)
    (transcription : String)
    (hlen : ¬ env.audioLen > MAX_FILE_SIZE) (hconv : env.convertOk = true)
    (hprobe : env.probe = some duration) (hdur : ¬ duration > MAX_AUDIO_DURATION)
    (hroom : env.roomAtFetch = some usersAtFetch)
    (hsender : findUser usersAtFetch env.senderId = some sender)
    (htrans : env.transcription = some transcription)
    (htne : ¬ jsTrim transcription = "")
    (hsynthSame : env.synthSame.isSome)
    (hok : ∀ l ∈ targetLanguages env.usersAtPartition env.senderId sender.language,
      (env.translateFor l).isSome ∧ ∀ t, (env.synthFor l t).isSome) :
    ∀ (unlinkFails : String → Bool) (fs : FS),
      (((processAudioData env unlinkFails fs).2.1).filter Call.isTranslate).length =
        ((env.usersAtPartition.filter (fun u =>
            u.socketId != env.senderId && u.language != sender.language)).map
          User.language).toFinset.card ∧
      (((processAudioData env unlinkFails fs).2.1).filter Call.isSynth).length =
        ((env.usersAtPartition.filter (fun u =>
            u.socketId != env.senderId && u.language != sender.language)).map
          User.language).toFinset.card := by
  intro unlinkFails fs
  obtain ⟨hloop1, hloop2, _⟩ := fanOutLoop_calls_of_success env sender.username
    sender.socketId (targetLanguages env.usersAtPartition env.senderId sender.language) hok
  have hM : (targetLanguages env.usersAtPartition env.senderId sender.language).length =
      ((env.usersAtPartition.filter (fun u =>
          u.socketId != env.senderId && u.language != sender.language)).map
        User.language).toFinset.card := by
    rw [targetLanguages, length_insertionDedup]
  have hcalls : (processAudioData env unlinkFails fs).2.1 = (tryBody env fs).calls := rfl
  rw [hcalls]
  unfold tryBody
  rw [if_neg hlen, hconv]
  rw [if_neg (by decide), hprobe]
  dsimp only
  rw [if_neg hdur, hroom]
  dsimp only
  rw [hsender]
  dsimp only
  rw [htrans]
  dsimp only
  rw [if_neg htne]
  by_cases hsame : (sameLanguageUsers env.usersAtPartition env.senderId
      sender.language).length > 0
  · rw [if_pos hsame]
    obtain ⟨a, ha⟩ := Option.isSome_iff_exists.mp hsynthSame
    rw [ha]
    dsimp only
    constructor
    · rw [List.filter_cons, List.filter_cons]
      simp only [Call.isTranslate]
      rw [if_neg Bool.false_ne_true, if_neg Bool.false_ne_true, hloop1, hM]
    · rw [List.filter_cons, List.filter_cons]
      simp only [Call.isSynth]
      rw [if_neg Bool.false_ne_true, if_neg Bool.false_ne_true, hloop2, hM]
  · rw [if_neg hsame]
    constructor
    · rw [List.filter_cons]
      simp only [Call.isTranslate]
      rw [if_neg Bool.false_ne_true, hloop1, hM]
    · rw [List.filter_cons]
      simp only [Call.isSynth]
      rw [if_neg Bool.false_ne_true, hloop2, hM]

/-! concrete members used by witnesses and counterexamples -/

def uSender : User := ⟨"s", "alice", "en", "s"⟩
def uBob : User := ⟨"b", "bob", "en", "b"⟩
def uFr : User := ⟨"f", "fabrice", "fr", "f"⟩
def uFr2 : User := ⟨"f2", "fleur", "fr", "f2"⟩
def uEs : User := ⟨"e", "carla", "es", "e"⟩

/-- Witness for C4: a room with three other members spanning two distinct
target languages (fr twice, es once): exactly 2 translation and 2 synthesis
calls. -/
theorem c4_one_call_per_distinct_language_witness :
    (((processAudioData
        ⟨"s", 4, "t.mp4", "t.wav", true, some 2, some [uSender], some "hello",
          some "AUD0", fun _ => some "trad", fun _ _ => some "aud",
          [uSender, uFr, uFr2, uEs], fun _ => [], some [uSender]⟩
        (fun _ => false) []).2.1).filter Call.isTranslate).length =
      (([uSender, uFr, uFr2, uEs].filter (fun u =>
          u.socketId != "s" && u.language != uSender.language)).map
        User.language).toFinset.card ∧
    (((processAudioData
        ⟨"s", 4, "t.mp4", "t.wav", true, some 2, some [uSender], some "hello",
          some "AUD0", fun _ => some "trad", fun _ _ => some "aud",
          [uSender, uFr, uFr2, uEs], fun _ => [], some [uSender]⟩
        (fun _ => false) []).2.1).filter Call.isSynth).length =
      (([uSender, uFr, uFr2, uEs].filter (fun u =>
          u.socketId != "s" && u.language != uSender.language)).map
        User.language).toFinset.card :=
  c4_one_call_per_distinct_language
    ⟨"s", 4, "t.mp4", "t.wav", true, some 2, some [uSender], some "hello",
      some "AUD0", fun _ => some "trad", fun _ _ => some "aud",
      [uSender, uFr, uFr2, uEs], fun _ => [], some [uSender]⟩
    [uSender] uSender 2 "hello" (by decide) rfl rfl (by decide) rfl rfl rfl
    (by decide) rfl (fun l hl => ⟨rfl, fun t => rfl⟩) (fun _ => false) []

/-- A translation or synthesis failure stops the per-language loop: the
languages before the failing one keep their deliveries, the failing and all
subsequent languages produce none, and the loop ends in an error. -/
theorem fanOutLoop_failure_aborts (env : PipeEnv) (senderName senderSocketId : String)
    (pre : List String) (bad : String) (post : List String)
    (hpre : ∀ l ∈ pre, (env.translateFor l).isSome ∧ ∀ t, (env.synthFor l t).isSome)
    (hbad : env.translateFor bad = none ∨
      ∃ c, env.translateFor bad = some c ∧ env.synthFor bad (jsTrim c) = none) :
    (fanOutLoop env senderName senderSocketId (pre ++ bad :: post)).1 =
      (fanOutLoop env senderName senderSocketId pre).1 ∧
    (fanOutLoop env senderName senderSocketId (pre ++ bad :: post)).2.2.isSome := by
  induction pre with
  | nil =>
    rcases hbad with hb | ⟨c, hc, hs⟩
    · rw [List.nil_append]
      unfold fanOutLoop
      rw [hb]
      exact ⟨rfl, rfl⟩
    · rw [List.nil_append]
      unfold fanOutLoop
      rw [hc]
      dsimp only
      rw [hs]
      exact ⟨rfl, rfl⟩
  | cons lang rest ih =>
    obtain ⟨hok1, hok2⟩ := hpre lang (List.mem_cons_self _ _)
    obtain ⟨c, hc⟩ := Option.isSome_iff_exists.mp hok1
    obtain ⟨a, ha⟩ := Option.isSome_iff_exists.mp (hok2 (jsTrim c))
    obtain ⟨ih1, ih2⟩ := ih (fun l hl => hpre l (List.mem_cons_of_mem _ hl))
    rw [List.cons_append]
    unfold fanOutLoop
    rw [hc]
    dsimp only
    rw [ha]
    dsimp only
    exact ⟨by rw [ih1], ih2⟩

/-- Every message emitted by the per-language loop is a translated-audio
message addressed to a member read from `room.users` at delivery time. -/
theorem fanOutLoop_msgs_translated (env : PipeEnv) (senderName senderSocketId : String)
    (langs : List String) :
    ∀ m ∈ (fanOutLoop env senderName senderSocketId langs).1,
      ∃ lang u txt aud, lang ∈ langs ∧ u ∈ env.usersAtTarget lang ∧
        u.language = lang ∧ u.socketId ≠ senderSocketId ∧
        m = Msg.translatedAudio u.socketId senderName txt (some aud) lang true := by
  induction langs with
  | nil =>
    intro m hm
    exact absurd hm (by simp [fanOutLoop])
  | cons lang rest ih =>
    intro m hm
    unfold fanOutLoop at hm
    cases hc : env.translateFor lang with
    | none =>
      rw [hc] at hm
      exact absurd hm (by simp)
    | some c =>
      rw [hc] at hm
      dsimp only at hm
      cases ha : env.synthFor lang (jsTrim c) with
      | none =>
        rw [ha] at hm
        exact absurd hm (by simp)
      | some a =>
        rw [ha] at hm
        dsimp only at hm
        rcases List.mem_append.mp hm with hm2 | hm2
        · obtain ⟨u, hu, hue⟩ := List.mem_map.mp hm2
          have hfu := List.mem_filter.mp hu
          have h2 := hfu.2
          simp only [Bool.and_eq_true, beq_iff_eq, bne_iff_ne] at h2
          exact ⟨lang, u, jsTrim c, a, List.mem_cons_self _ _, hfu.1, h2.1, h2.2, hue.symm⟩
        · obtain ⟨l2, u, txt, aud, hl2, rest2⟩ := ih m hm2
          exact ⟨l2, u, txt, aud, List.mem_cons_of_mem _ hl2, rest2⟩

/-- Every message emitted inside the try block is either a translated-audio
message with `isTranslation = false` (the echo or the same-language
broadcast) or a message of the per-language loop. -/
theorem tryBody_msgs_shape (env : PipeEnv) (fs : FS) :
    ∀ m ∈ (tryBody env fs).msgs,
      (∃ tgt uname txt aud lang,
        m = Msg.translatedAudio tgt uname txt aud lang false) ∨
      (∃ senderName senderSocketId langs,
        m ∈ (fanOutLoop env senderName senderSocketId langs).1) := by
  intro m hm
  unfold tryBody at hm
  repeat' split at hm
  all_goals dsimp only at hm
  · exact absurd hm (List.not_mem_nil m)
  · exact absurd hm (List.not_mem_nil m)
  · exact absurd hm (List.not_mem_nil m)
  · exact absurd hm (List.not_mem_nil m)
  · exact absurd hm (List.not_mem_nil m)
  · exact absurd hm (List.not_mem_nil m)
  · exact absurd hm (List.not_mem_nil m)
  · exact absurd hm (List.not_mem_nil m)
  · rcases List.mem_singleton.mp hm with rfl
    exact Or.inl ⟨_, _, _, _, _, rfl⟩
  · rcases List.mem_cons.mp hm with rfl | hm2
    · exact Or.inl ⟨_, _, _, _, _, rfl⟩
    · rcases List.mem_append.mp hm2 with hm3 | hm3
      · obtain ⟨u, hu, hue⟩ := List.mem_map.mp hm3
        exact Or.inl ⟨_, _, _, _, _, hue.symm⟩
      · exact Or.inr ⟨_, _, _, hm3⟩
  · rcases List.mem_cons.mp hm with rfl | hm2
    · exact Or.inl ⟨_, _, _, _, _, rfl⟩
    · exact Or.inr ⟨_, _, _, hm2⟩

/-- C1 (amended): if the translation or synthesis call for one target
language fails, the error is reported only to the sender, but the failure
aborts the remaining fan-out — target languages processed before the failure
keep their deliveries while the failing language and every language after it
in iteration order are not delivered. -/
theorem c1_failure_aborts_remaining_fanout (env : PipeEnv)
    (senderName senderSocketId : String) (pre : List String) (bad : String)
    (post : List String)
    (hpre : ∀ l ∈ pre, (env.translateFor l).isSome ∧ ∀ t, (env.synthFor l t).isSome)
    (hbad : env.translateFor bad = none ∨
      ∃ c, env.translateFor bad = some c ∧ env.synthFor bad (jsTrim c) = none) :
    (fanOutLoop env senderName senderSocketId (pre ++ bad :: post)).1 =
      (fanOutLoop env senderName senderSocketId pre).1 ∧
    (fanOutLoop env senderName senderSocketId (pre ++ bad :: post)).2.2.isSome ∧
    ∀ (unlinkFails : String → Bool) (fs : FS) (m : Msg),
      m ∈ (processAudioData env unlinkFails fs).1 →
      ∀ tgt msg un, m = Msg.errorMessage tgt msg un → tgt = env.senderId := by
  obtain ⟨h1, h2⟩ :=
    fanOutLoop_failure_aborts env senderName senderSocketId pre bad post hpre hbad
  refine ⟨h1, h2, ?_⟩
  intro unlinkFails fs m hm tgt msg un hme
  subst hme
  have hq : (processAudioData env unlinkFails fs).1 =
      (tryBody env fs).msgs ++
        (match (tryBody env fs).err with
         | none => []
         | some m2 =>
           [Msg.errorMessage env.senderId m2
             (env.roomAtCatch.bind
               (fun us => (findUser us env.senderId).map User.username))]) := rfl
  rw [hq] at hm
  rcases List.mem_append.mp hm with hm3 | hm3
  · rcases tryBody_msgs_shape env fs _ hm3 with ⟨t2, u2, x2, a2, l2, he⟩ | ⟨sn, ss, ls, hmem⟩
    · cases he
    · obtain ⟨lang, u, txt, aud, _, _, _, _, he⟩ :=
        fanOutLoop_msgs_translated env sn ss ls _ hmem
      cases he
  · cases herr : (tryBody env fs).err with
    | none =>
      rw [herr] at hm3
      exact absurd hm3 (by simp)
    | some m2 =>
      rw [herr] at hm3
      have he := List.mem_singleton.mp hm3
      injection he with e1 e2 e3

/-- Pipeline oracle for the C1 counterexample: two distinct target languages
in iteration order (fr first, then es); the fr translation request fails
while the es translation and synthesis are healthy and the es member is
present at every read of the room. -/
def envC1 : PipeEnv :=
  ⟨"s", 4, "t.mp4", "t.wav", true, some 2, some [uSender, uFr, uEs],
    some "hello", some "AUD0",
    fun l => if l = "es" then some "hola" else none,
    fun _ _ => some "AUD",
    [uSender, uFr, uEs], fun _ => [uSender, uFr, uEs], some [uSender, uFr, uEs]⟩

/-- C1 counterexample: with targets fr (failing) and es (healthy, member
present at delivery time), the full output of the invocation is the echo to
the sender plus one error to the sender — the es member receives nothing,
so a single language's failure does NOT leave the other languages' fan-out
unaffected. -/
theorem c1_counterexample_sibling_language_not_delivered :
    (processAudioData envC1 (fun _ => false) []).1 =
      [Msg.translatedAudio "s" "alice" "hello" none "en" false,
       Msg.errorMessage "s" "translation request failed" (some "alice")] ∧
    targetLanguages envC1.usersAtPartition "s" "en" = ["fr", "es"] ∧
    envC1.translateFor "es" = some "hola" ∧
    envC1.synthFor "es" (jsTrim "hola") = some "AUD" ∧
    uEs ∈ envC1.usersAtTarget "es" := by
  exact ⟨by decide, by decide, by decide, rfl, by decide⟩

/-- Witness for the C1 amended theorem: the failing language (fr) aborts the
loop before the healthy sibling (es). -/
theorem c1_failure_aborts_remaining_fanout_witness :
    (fanOutLoop envC1 "alice" "s" ([] ++ "fr" :: ["es"])).1 =
      (fanOutLoop envC1 "alice" "s" []).1 ∧
    (fanOutLoop envC1 "alice" "s" ([] ++ "fr" :: ["es"])).2.2.isSome ∧
    ∀ (unlinkFails : String → Bool) (fs : FS) (m : Msg),
      m ∈ (processAudioData envC1 unlinkFails fs).1 →
      ∀ tgt msg un, m = Msg.errorMessage tgt msg un → tgt = envC1.senderId :=
  c1_failure_aborts_remaining_fanout envC1 "alice" "s" [] "fr" ["es"]
    (fun l hl => absurd hl (List.not_mem_nil l)) (Or.inl (by decide))

/-- Pipeline oracle for the C8 counterexample: at the partition read the
same-language member bob is still in the room; at every later read (the
per-language delivery reads and the catch read) bob is gone — modelling bob
leaving during the same-language synthesis await. -/
def envC8 : PipeEnv :=
  ⟨"s", 4, "t.mp4", "t.wav", true, some 2, some [uSender, uBob],
    some "hello", some "AUD0",
    fun _ => none, fun _ _ => none,
    [uSender, uBob], fun _ => [uSender], some [uSender]⟩

/-- C8 counterexample: bob (same language as the sender) leaves between the
partition snapshot and the same-language delivery — he is absent from every
delivery-time read — yet the pipeline still emits the same-language audio to
bob's socket: the same-language branch does NOT re-check membership at
delivery time, so delivery to a departed member is not suppressed there. -/
theorem c8_counterexample_same_language_branch_no_recheck :
    (processAudioData envC8 (fun _ => false) []).1 =
      [Msg.translatedAudio "s" "alice" "hello" none "en" false,
       Msg.translatedAudio "b" "alice" "hello" (some "AUD0") "en" false] ∧
    uBob ∉ envC8.usersAtTarget "en" ∧
    uBob ∉ envC8.roomAtCatch.getD [] := by
  exact ⟨by decide, by decide, by decide⟩

theorem fanOutLoop_err_ignores_usersAtTarget (env : PipeEnv)
    (f2 : String → List User) (sn ss : String) (langs : List String) :
    (fanOutLoop { env with usersAtTarget := f2 } sn ss langs).2.2 =
      (fanOutLoop env sn ss langs).2.2 := by
  induction langs with
  | nil => rfl
  | cons lang rest ih =>
    unfold fanOutLoop
    have hp : ({ env with usersAtTarget := f2 } : PipeEnv).translateFor =
        env.translateFor := rfl
    have hq : ({ env with usersAtTarget := f2 } : PipeEnv).synthFor =
        env.synthFor := rfl
    rw [hp, hq]
    cases hc : env.translateFor lang with
    | none => rfl
    | some c =>
      dsimp only
      cases ha : env.synthFor lang (jsTrim c) with
      | none => rfl
      | some a =>
        dsimp only
        exact ih

/-- C8 (amended): the per-target-language branch does re-check membership at
delivery time — every delivered translated message is addressed to a member
present in the delivery-time read of `room.users` for that language, and the
loop's error outcome is independent of those delivery-time reads (a departed
member is suppressed silently, never a pipeline error).  The same-language
branch instead snapshots its recipients at partition time and does not
re-check at delivery, as the counterexample shows. -/
theorem c8_target_branch_rechecks_membership (env : PipeEnv)
    (unlinkFails : String → Bool) (fs : FS) :
    (∀ tgt uname txt aud lang,
      Msg.translatedAudio tgt uname txt aud lang true ∈
        (processAudioData env unlinkFails fs).1 →
      ∃ u ∈ env.usersAtTarget lang, u.socketId = tgt) ∧
    ∀ (f2 : String → List User) (sn ss : String) (langs : List String),
      (fanOutLoop { env with usersAtTarget := f2 } sn ss langs).2.2 =
        (fanOutLoop env sn ss langs).2.2 := by
  refine ⟨?_, fanOutLoop_err_ignores_usersAtTarget env⟩
  intro tgt uname txt aud lang hm
  have hq : (processAudioData env unlinkFails fs).1 =
      (tryBody env fs).msgs ++
        (match (tryBody env fs).err with
         | none => []
         | some m2 =>
           [Msg.errorMessage env.senderId m2
             (env.roomAtCatch.bind
               (fun us => (findUser us env.senderId).map User.username))]) := rfl
  rw [hq] at hm
  rcases List.mem_append.mp hm with hm3 | hm3
  · rcases tryBody_msgs_shape env fs _ hm3 with ⟨t2, u2, x2, a2, l2, he⟩ | ⟨sn, ss, ls, hmem⟩
    · exact absurd he (by simp)
    · obtain ⟨lang2, u, txt2, aud2, _, humem, _, _, he⟩ :=
        fanOutLoop_msgs_translated env sn ss ls _ hmem
      injection he with e1 e2 e3 e4 e5 e6
      exact ⟨u, e5 ▸ humem, e1.symm⟩
  · cases herr : (tryBody env fs).err with
    | none =>
      rw [herr] at hm3
      exact absurd hm3 (by simp)
    | some m2 =>
      rw [herr] at hm3
      have he := List.mem_singleton.mp hm3
      cases he

/-- A healthy pipeline oracle: one es member, all external calls succeed. -/
def envOk : PipeEnv :=
  ⟨"s", 4, "t.mp4", "t.wav", true, some 2, some [uSender, uEs],
    some "hello", some "AUD0",
    fun _ => some "hola", fun _ _ => some "AUD",
    [uSender, uEs], fun _ => [uSender, uEs], some [uSender, uEs]⟩

/-- Witness for the C8 amended theorem: the delivered es message is indeed
addressed to a delivery-time member, and the loop error is unchanged when
the delivery-time reads are emptied. -/
theorem c8_target_branch_rechecks_membership_witness :
    (∃ u ∈ envOk.usersAtTarget "es", u.socketId = "e") ∧
    (fanOutLoop { envOk with usersAtTarget := fun _ => [] } "alice" "s" ["es"]).2.2 =
      (fanOutLoop envOk "alice" "s" ["es"]).2.2 :=
  ⟨(c8_target_branch_rechecks_membership envOk (fun _ => false) []).1
      "e" "alice" (jsTrim "hola") (some "AUD") "es" (by decide),
    (c8_target_branch_rechecks_membership envOk (fun _ => false) []).2
      (fun _ => []) "alice" "s" ["es"]⟩

/-! ## audioData handler (server.js:653-686), claim C9 -/

/-- The audioData handler: room existence and membership validation (with
errors to the sender), the processingStatusUpdate broadcast, and the guard
`if (!isSpeaking && audioData.length > 0) processAudioData(...)`
(server.js:683-685).  Returns the emitted messages and whether the pipeline
was invoked. -/
def audioDataHandler (rooms : AList (List User)) (senderId roomId : String)
    (audioLen : Nat) (isSpeaking : Bool) : List Msg × Bool :=
  match lookupA rooms roomId with
  | none => ([Msg.errorMessage senderId "Room not found" none], false)
  | some users =>
    if (findUser users senderId).isNone then
      ([Msg.errorMessage senderId "Not a member of this room" none], false)
    else
      ((match findUser users senderId with
        | some sender => [Msg.processingStatus roomId sender.username]
        | none => []),
        isSpeaking = false ∧ audioLen > 0)

/-- C9 counterexample: a zero-length utterance from a valid member of an
existing room emits no error message at all and never invokes the pipeline —
it is silently dropped, not rejected with an Empty validation error. -/
theorem c9_counterexample_zero_length_dropped_silently :
    audioDataHandler [("1abcde", [uSender])] "s" "1abcde" 0 false =
      ([Msg.processingStatus "1abcde" "alice"], false) := by decide

/-- C9 (amended): a stale room (room gone) or a stale membership (sender no
longer a member) is rejected with an error message to the sender and the
pipeline is not invoked; a zero-length payload, however, is silently
ignored: the handler emits only the processing-status broadcast, no error,
and does not invoke the pipeline. -/
theorem c9_stale_state_errors_zero_length_silent (rooms : AList (List User))
    (senderId roomId : String) (audioLen : Nat) (isSpeaking : Bool) :
    (lookupA rooms roomId = none →
      audioDataHandler rooms senderId roomId audioLen isSpeaking =
        ([Msg.errorMessage senderId "Room not found" none], false)) ∧
    (∀ users, lookupA rooms roomId = some users → findUser users senderId = none →
      audioDataHandler rooms senderId roomId audioLen isSpeaking =
        ([Msg.errorMessage senderId "Not a member of this room" none], false)) ∧
    (∀ users sender, lookupA rooms roomId = some users →
      findUser users senderId = some sender → audioLen = 0 →
      audioDataHandler rooms senderId roomId audioLen isSpeaking =
        ([Msg.processingStatus roomId sender.username], false)) := by
  refine ⟨?_, ?_, ?_⟩
  · intro h
    unfold audioDataHandler
    rw [h]
  · intro users h1 h2
    unfold audioDataHandler
    rw [h1]
    dsimp only
    rw [h2]
    rfl
  · intro users sender h1 h2 h3
    unfold audioDataHandler
    rw [h1]
    dsimp only
    rw [h2]
    subst h3
    simp

/-- Witness for the C9 amended theorem at concrete handler inputs. -/
theorem c9_stale_state_errors_zero_length_silent_witness :
    audioDataHandler [] "s" "1abcde" 5 false =
      ([Msg.errorMessage "s" "Room not found" none], false) ∧
    audioDataHandler [("1abcde", [uSender])] "x" "1abcde" 5 false =
      ([Msg.errorMessage "x" "Not a member of this room" none], false) ∧
    audioDataHandler [("1abcde", [uSender])] "s" "1abcde" 0 true =
      ([Msg.processingStatus "1abcde" "alice"], false) :=
  ⟨(c9_stale_state_errors_zero_length_silent [] "s" "1abcde" 5 false).1 rfl,
    (c9_stale_state_errors_zero_length_silent [("1abcde", [uSender])] "x" "1abcde" 5
      false).2.1 [uSender] rfl rfl,
    (c9_stale_state_errors_zero_length_silent [("1abcde", [uSender])] "s" "1abcde" 0
      true).2.2 [uSender] uSender rfl rfl rfl⟩

/-! ## Native-client verification and the nonce store
(server.js:50-58, 170-208), claim C5 -/

/-- The native-client challenge body (server.js:173-182). -/
structure MobileChallenge where
  deviceId : String
  timestampStr : String
  nonce : String
  bundleId : String
  verificationHash : String
deriving DecidableEq, Repr

/-- `usedNonces`: nonce value → timestamp of first use in milliseconds
(server.js:50). -/
abbrev NonceStore := AList Nat

/-- The expected hash (server.js:181-183); the SHA-256 digest is abstracted
as the parameter `H`. -/
def mobileExpectedHash (H : String → String) (initialKey : String)
    (c : MobileChallenge) : String :=
  H (c.deviceId ++ ":" ++ c.timestampStr ++ ":" ++ c.nonce ++ ":" ++
    c.bundleId ++ ":" ++ initialKey)

inductive MobileResult where
  | nonceAlreadyUsed
  | invalidVerification
  | accepted
deriving DecidableEq, Repr

/-- The mobile branch of POST /verify-origin (server.js:172-207): reject a
recorded nonce (403 'Nonce already used'), then reject a hash mismatch (403
'Invalid verification'), else record the nonce with the current time and
answer success. -/
def mobileVerify (H : String → String) (initialKey : String) (c : MobileChallenge)
    (now : Nat) (store : NonceStore) : MobileResult × NonceStore :=
  if (lookupA store c.nonce).isSome then (MobileResult.nonceAlreadyUsed, store)
  else if c.verificationHash ≠ mobileExpectedHash H initialKey c then
    (MobileResult.invalidVerification, store)
  else (MobileResult.accepted, setA store c.nonce now)

/-- The hourly sweep (server.js:53-58): delete every record older than 24
hours (`now - timestamp > 24 * 60 * 60 * 1000`). -/
def nonceSweep (now : Nat) (store : NonceStore) : NonceStore :=
  store.filter (fun p => !(now - p.2 > 24 * 60 * 60 * 1000))

/-- C5 counterexample: a nonce accepted and recorded at time 0 is swept at
time 24h+1ms (the hourly sweep deletes records older than 24 hours), after
which the very same valid payload is accepted again — so "every subsequent
verification request presenting the same nonce is rejected" is false for
requests arriving after the retention window. -/
theorem c5_counterexample_nonce_accepted_again_after_sweep :
    mobileVerify (fun _ => "X") "k" ⟨"d", "0", "n", "b", "X"⟩ 0 [] =
      (MobileResult.accepted, [("n", 0)]) ∧
    nonceSweep 86400001 [("n", 0)] = [] ∧
    mobileVerify (fun _ => "X") "k" ⟨"d", "0", "n", "b", "X"⟩ 86400001 [] =
      (MobileResult.accepted, [("n", 86400001)]) := by
  exact ⟨by decide, by decide, by decide⟩

/-- C5 (amended): while a nonce remains recorded in the store, every
subsequent verification presenting it is rejected with the nonce-reused
error; every rejected request leaves the store unchanged; and the sweep
keeps every record at most 24 hours old.  The guarantee is therefore
bounded by the 24-hour retention window — the hourly sweep deletes older
records, after which the same nonce is accepted again. -/
theorem c5_nonce_rejected_while_recorded (H : String → String) (initialKey : String)
    (c : MobileChallenge) (now : Nat) (store : NonceStore) :
    ((lookupA store c.nonce).isSome →
      mobileVerify H initialKey c now store = (MobileResult.nonceAlreadyUsed, store)) ∧
    (∀ r s, mobileVerify H initialKey c now store = (r, s) →
      r ≠ MobileResult.accepted → s = store) ∧
    (∀ nonce ts, (nonce, ts) ∈ store → ¬ now - ts > 24 * 60 * 60 * 1000 →
      (nonce, ts) ∈ nonceSweep now store) := by
  refine ⟨?_, ?_, ?_⟩
  · intro h
    unfold mobileVerify
    rw [if_pos h]
  · intro r s h hr
    unfold mobileVerify at h
    by_cases h1 : (lookupA store c.nonce).isSome
    · rw [if_pos h1] at h
      injection h with e1 e2
      exact e2.symm
    · rw [if_neg h1] at h
      by_cases h2 : c.verificationHash ≠ mobileExpectedHash H initialKey c
      · rw [if_pos h2] at h
        injection h with e1 e2
        exact e2.symm
      · rw [if_neg h2] at h
        injection h with e1 e2
        exact absurd e1.symm hr
  · intro nonce ts hmem hage
    unfold nonceSweep
    exact List.mem_filter.mpr ⟨hmem, by simp [hage]⟩

/-- Witness for the C5 amended theorem: a recorded nonce is rejected and a
fresh record survives the sweep. -/
theorem c5_nonce_rejected_while_recorded_witness :
    mobileVerify (fun _ => "X") "k" ⟨"d", "0", "n", "b", "X"⟩ 5 [("n", 0)] =
      (MobileResult.nonceAlreadyUsed, [("n", 0)]) ∧
    ("n", 0) ∈ nonceSweep 5 [("n", 0)] :=
  ⟨(c5_nonce_rejected_while_recorded (fun _ => "X") "k" ⟨"d", "0", "n", "b", "X"⟩
      5 [("n", 0)]).1 (by decide),
    (c5_nonce_rejected_while_recorded (fun _ => "X") "k" ⟨"d", "0", "n", "b", "X"⟩
      5 [("n", 0)]).2.2 "n" 0 (by decide) (by decide)⟩

/-! ## Room code generation (server.js:293-315, 530-553), claim C6 -/

/-- `Math.random().toString(36).substring(2, 7)` (server.js:302/539): take
characters 2..6 of the base-36 rendering of the random double.  The
rendering is `"0"` for zero and `"0." ++ digits` otherwise, so the result
has UP TO five characters — fewer whenever the double has a short base-36
expansion (for example `(0.5).toString(36) = "0.i"`). -/
def remainingChars (randStr : String) : String := ⟨(randStr.data.drop 2).take 5⟩

/-- The candidate room id (server.js:301-303/538-540): the first digit 1-9
from one `Math.random()` draw, then the suffix from a second draw. -/
def roomCode (firstNumber : Nat) (randStr : String) : String :=
  toString firstNumber ++ remainingChars randStr

def isAlnum (c : Char) : Bool :=
  ('0' ≤ c && c ≤ '9') || ('a' ≤ c && c ≤ 'z') || ('A' ≤ c && c ≤ 'Z')

/-- The claim's grammar `[1-9][A-Za-z0-9]{5}`: exactly six characters, the
first a digit 1-9, the rest alphanumeric. -/
def matchesRoomGrammar (s : String) : Bool :=
  s.data.length == 6 &&
  (match s.data with
   | c :: rest => ('1' ≤ c && c ≤ '9') && rest.all isAlnum
   | [] => false)

/-- The generation do-while loop (server.js:300-305/537-542): on attempt
`i` the candidate is `cand i`; the loop repeats while the candidate is in
use and fewer than `maxAttempts = 5` attempts were made.  Returns the last
candidate and the attempt count. -/
def doWhileGen (occupied : String → Bool) (cand : Nat → String) :
    Nat → Nat → String × Nat
  | attempts, 0 => (cand attempts, attempts + 1)
  | attempts, fuel + 1 =>
    if occupied (cand attempts) ∧ attempts + 1 < 5 then
      doWhileGen occupied cand (attempts + 1) fuel
    else (cand attempts, attempts + 1)

/-- Room creation (server.js:300-312/537-550): run the loop from attempt 0;
if the attempts are exhausted and the final candidate is still occupied,
fail with no room created, else create the room under the candidate id. -/
def createRoomId (occupied : String → Bool) (cand : Nat → String) : Option String :=
  if (doWhileGen occupied cand 0 5).2 ≥ 5 ∧ occupied (doWhileGen occupied cand 0 5).1 then
    none
  else some (doWhileGen occupied cand 0 5).1

theorem doWhileGen_post (occupied : String → Bool) (cand : Nat → String) :
    ∀ (fuel attempts : Nat), 5 ≤ attempts + fuel + 1 →
      occupied (doWhileGen occupied cand attempts fuel).1 = true →
      5 ≤ (doWhileGen occupied cand attempts fuel).2 := by
  intro fuel
  induction fuel with
  | zero =>
    intro attempts h5 hocc
    simpa [doWhileGen] using h5
  | succ f ih =>
    intro attempts h5 hocc
    unfold doWhileGen at hocc ⊢
    by_cases hc : occupied (cand attempts) = true ∧ attempts + 1 < 5
    · rw [if_pos hc] at hocc ⊢
      exact ih (attempts + 1) (by omega) hocc
    · rw [if_neg hc] at hocc ⊢
      rcases not_and_or.mp hc with h | h
      · exact absurd hocc h
      · simp only
        omega

/-- A successfully created room id was not in use at creation time. -/
theorem createRoomId_unique (occupied : String → Bool) (cand : Nat → String)
    (r : String) (h : createRoomId occupied cand = some r) : occupied r = false := by
  unfold createRoomId at h
  by_cases hc : (doWhileGen occupied cand 0 5).2 ≥ 5 ∧
      occupied (doWhileGen occupied cand 0 5).1 = true
  · rw [if_pos hc] at h
    cases h
  · rw [if_neg hc] at h
    injection h with e
    subst e
    by_cases ho : occupied (doWhileGen occupied cand 0 5).1 = true
    · rcases not_and_or.mp hc with h2 | h2
      · exact absurd (doWhileGen_post occupied cand 5 0 (by omega) ho) h2
      · exact absurd ho h2
    · cases hb : occupied (doWhileGen occupied cand 0 5).1 with
      | false => rfl
      | true => exact absurd hb ho

/-- C6 (code bug, evaluated at the failing input): when the suffix draw is
`Math.random() = 0.5`, `(0.5).toString(36) = "0.i"` and `substring(2, 7)`
yields the single character `"i"`, so with first digit 7 the generated and
stored room id is `"7i"` — two characters, violating the six-character
grammar `[1-9][A-Za-z0-9]{5}` that both the claim and the code's own
comments ("followed by 5 alphanumeric characters") state.  The last
conjunct shows the exhaustion path: five occupied attempts create no room. -/
theorem c6_short_random_suffix_breaks_grammar :
    roomCode 7 "0.i" = "7i" ∧
    matchesRoomGrammar (roomCode 7 "0.i") = false ∧
    createRoomId (fun _ => false) (fun _ => roomCode 7 "0.i") = some "7i" ∧
    matchesRoomGrammar (roomCode 7 "0.defgh") = true ∧
    createRoomId (fun s => s == "7i") (fun _ => roomCode 7 "0.i") = none := by
  exact ⟨by decide, by decide, by decide, by decide, by decide⟩

/-! ## Web-client verification (server.js:61-80, 210-228), claim C7 -/

/-- `maxAge = 5 * 60 * 1000` milliseconds (server.js:62). -/
def WEB_MAX_AGE : Nat := 5 * 60 * 1000

/-- verifyInterpifyClient (server.js:61-80), with the HMAC-SHA256 hex digest
abstracted as the parameter `hmacHex`.  Returns `.ok false` when the
timestamp is older than five minutes (the signature is never inspected on
that path); `crypto.timingSafeEqual` throws on length mismatch, modelled as
`.error`; otherwise the signature is compared with the expected digest. -/
def verifyInterpifyClient (hmacHex : String → String → String) (appSecret : String)
    (now ts : Nat) (signature origin : String) : Except Unit Bool :=
  if now - ts > WEB_MAX_AGE then Except.ok false
  else
    if signature.length ≠ (hmacHex appSecret (toString ts ++ ":" ++ origin)).length then
      Except.error ()
    else Except.ok (signature = hmacHex appSecret (toString ts ++ ":" ++ origin))

/-- The web branch of POST /verify-origin (server.js:210-228): missing
headers → 400; a thrown comparison → 500; a false verdict → 403 with the
generic 'Invalid signature' error; success → 200 and the origin is added to
the verified-origin set. -/
def webVerify (hmacHex : String → String → String) (appSecret : String) (now : Nat)
    (timestamp : Option Nat) (signature origin : Option String)
    (origins : List String) : (Nat × String) × List String :=
  match timestamp, signature, origin with
  | some ts, some sig, some o =>
    match verifyInterpifyClient hmacHex appSecret now ts sig o with
    | Except.error _ => ((500, "Verification failed"), origins)
    | Except.ok true =>
      ((200, "Origin verified and added"), if o ∈ origins then origins else o :: origins)
    | Except.ok false => ((403, "Invalid signature"), origins)
  | _, _, _ => ((400, "Missing required headers"), origins)

/-- C7 counterexample: an expired request carrying the CORRECT signature is
answered with exactly the same generic response as a fresh request with a
wrong signature — HTTP 403 'Invalid signature' — and not with any distinct
Expired reason (the implementation folds both causes into one boolean). -/
theorem c7_counterexample_expired_gets_generic_invalid_signature :
    webVerify (fun _ _ => "sig") "sec" 300001 (some 0) (some "sig") (some "o") [] =
      ((403, "Invalid signature"), []) ∧
    webVerify (fun _ _ => "sig") "sec" 1 (some 0) (some "bad") (some "o") [] =
      ((403, "Invalid signature"), []) ∧
    (fun _ _ => "sig" : String → String → String) "sec" (toString 0 ++ ":" ++ "o") = "sig" := by
  exact ⟨by decide, by decide, rfl⟩

/-- C7 (amended): every web verification request whose timestamp is older
than five minutes is rejected — regardless of the presented signature, even
the correct HMAC — and the verified-origin set is not extended; the
rejection however uses the generic 403 'Invalid signature' response, not a
distinct Expired reason. -/
theorem c7_expired_rejected_regardless_of_signature
    (hmacHex : String → String → String) (appSecret : String) (now ts : Nat)
    (sig o : String) (origins : List String) (h : now - ts > WEB_MAX_AGE) :
    webVerify hmacHex appSecret now (some ts) (some sig) (some o) origins =
      ((403, "Invalid signature"), origins) := by
  unfold webVerify verifyInterpifyClient
  dsimp only
  rw [if_pos h]

/-- Witness for the C7 amended theorem: a correct signature, six minutes
old. -/
theorem c7_expired_rejected_regardless_of_signature_witness :
    webVerify (fun _ _ => "sig") "sec" 360000 (some 0) (some "sig") (some "o") [] =
      ((403, "Invalid signature"), []) :=
  c7_expired_rejected_regardless_of_signature (fun _ _ => "sig") "sec" 360000 0
    "sig" "o" [] (by decide)

end Interpify
